import Mathlib

/-!
# Verification of the review-selection pipeline core

Shallow embedding of the scoring / fusion / caching / retry-gate core of the
repository (`src/review/...`, `src/util/...`), together with theorems checking
the natural-language specification against it.

Modelling conventions:
* Python dicts are insertion-ordered association lists (`List (κ × ν)`); an
  assignment `d[k] = v` overwrites in place when the key exists, otherwise
  appends (`dictInsert`), exactly like CPython dicts.
* Python `state.get(key, default)` on optional state fields is `Option.getD`.
* Floats are modelled as `ℚ` (the arithmetic performed — means of small
  integers, comparison against 0.75 — is exact in both).
* External effects (the LLM backend, the HTML parser inside
  `clean_html_text`, the `tiktoken` encoder inside `estimate_tokens`, md5 and
  JSON serialisation) are abstracted as function parameters; a failing call is
  `none`.  The character-count fallback estimator that `estimate_tokens` uses
  when the encoder is unavailable is embedded concretely (`fallbackEstimate`).
-/

/-- Python-dict assignment `d[k] = v`: overwrite in place if the key is
present, else append.  Preserves CPython's insertion order. -/
def dictInsert {ν : Type} (k : String) (v : ν) : List (String × ν) → List (String × ν)
  | [] => [(k, v)]
  | (k', v') :: rest => if k' = k then (k, v) :: rest else (k', v') :: dictInsert k v rest

/-- Python-dict lookup `d[k]` / `k in d` (first — and only — binding). -/
def lookupDict {ν : Type} (d : List (String × ν)) (k : String) : Option ν :=
  (d.find? (fun kv => kv.1 = k)).map (fun kv => kv.2)

/-- Python `d1.update(d2)`. -/
def dictUpdate {ν : Type} (d e : List (String × ν)) : List (String × ν) :=
  e.foldl (fun acc kv => dictInsert kv.1 kv.2 acc) d

/-- `k in d` for the association-list dicts. -/
def containsKey {ν : Type} (d : List (String × ν)) (k : String) : Bool :=
  (lookupDict d k).isSome

/-! ## Retry-gated quality control (`src/review/condition_checker.py`,
`src/review/nodes/best_review_candidate_re_rank.py`) -/

/-- The pipeline-state fields read and written by the rerank node and the
confidence gate (`src/review/state/state.py` keys `retry_count`,
`re_rank_retry_count`, `confidence`).  A key absent from the state dict is
`none`; `state.get(key, default)` is `Option.getD`.  The node's
`aggregated_best_reviews` output is not read by the gate and is modelled in
the fusion section. -/
structure GateState where
  retry_count : Option ℕ := none
  re_rank_retry_count : Option ℕ := none
  confidence : Option ℚ := none
deriving DecidableEq, Repr

/-- `check_confidence_with_retry_limit` (condition_checker.py lines 6-21):
reads `state.get("retry_count", 0)` and `state.get("confidence", 1)`;
accepts when confidence > 0.75, retries while the retry counter is < 2,
otherwise force-accepts. -/
def check_confidence_with_retry_limit (s : GateState) : String :=
  let retry := s.retry_count.getD 0
  let confidence := s.confidence.getD 1
  if confidence > 3/4 then "high_confidence"
  else if retry < 2 then "low_confidence"
  else "high_confidence"

/-- The confidence value computed by `rerank_node`
(best_review_candidate_re_rank.py line 16): `1 if retry_count == 0 else 1` —
both branches are 1. -/
def rerank_confidence (retry_count : ℕ) : ℚ :=
  if retry_count = 0 then 1 else 1

/-- One attempt of the rerank stage with the confidence signal abstracted:
`conf n` is the confidence produced when the node reads
`re_rank_retry_count = n`.  The state keys written are exactly the ones
`rerank_node` returns: `confidence`, and `re_rank_retry_count` incremented —
note it does NOT write the `retry_count` key the gate reads.
`rerank_node` itself is `rerankStepWith (fun n => rerank_confidence n)`. -/
def rerankStepWith (conf : ℕ → ℚ) (s : GateState) : GateState :=
  let retry_count := s.re_rank_retry_count.getD 0
  { s with confidence := some (conf retry_count),
           re_rank_retry_count := some (retry_count + 1) }

/-- The gate-relevant state update of `rerank_node`
(best_review_candidate_re_rank.py lines 15-23). -/
def rerank_node (s : GateState) : GateState :=
  rerankStepWith (fun n => rerank_confidence n) s

lemma rerankStepWith_retry_count (conf : ℕ → ℚ) (s : GateState) :
    (rerankStepWith conf s).retry_count = s.retry_count := rfl

lemma iterate_rerankStepWith_retry_count (conf : ℕ → ℚ) (s : GateState) (n : ℕ) :
    ((rerankStepWith conf)^[n] s).retry_count = s.retry_count := by
  induction n generalizing s with
  | zero => rfl
  | succ n ih => rw [Function.iterate_succ_apply, ih, rerankStepWith_retry_count]

lemma iterate_rerankStepWith_confidence (conf : ℕ → ℚ) (s : GateState) (n : ℕ) :
    ∃ k, ((rerankStepWith conf)^[n + 1] s).confidence = some (conf k) := by
  induction n generalizing s with
  | zero => exact ⟨s.re_rank_retry_count.getD 0, rfl⟩
  | succ n ih =>
    rw [Function.iterate_succ_apply]
    exact ih (rerankStepWith conf s)

lemma iterate_rerankStepWith_count (conf : ℕ → ℚ) (n : ℕ) :
    ((rerankStepWith conf)^[n] {}).re_rank_retry_count.getD 0 = n := by
  induction n with
  | zero => rfl
  | succ n ih =>
    rw [Function.iterate_succ_apply']
    simp only [rerankStepWith, ih]
    rfl

/-- C1, code bug.  The spec's bounded-retry guarantee fails on the code: the
gate reads the state key `retry_count`, but the rerank node increments the
distinct key `re_rank_retry_count`, so the counter the gate consults is never
incremented.  For a confidence signal that persistently stays at or below the
0.75 threshold (here the constant 1/2), the gate still answers
`"low_confidence"` (retry) at EVERY attempt — in particular at the third
attempt, where the claim requires forced acceptance — and the loop never
reaches forced accept: after any number of attempts the `retry_count` key is
still absent while `re_rank_retry_count` has been incremented each time. -/
theorem c1_retry_gate_never_terminates :
    (∀ n : ℕ, check_confidence_with_retry_limit
        ((rerankStepWith (fun _ => 1/2))^[n + 1] {}) = "low_confidence")
    ∧ ((rerankStepWith (fun _ => 1/2))^[3] {}).re_rank_retry_count = some 3
    ∧ ((rerankStepWith (fun _ => 1/2))^[3] {}).retry_count = none := by
  refine ⟨fun n => ?_, ?_, ?_⟩
  · obtain ⟨k, hk⟩ := iterate_rerankStepWith_confidence (fun _ => 1/2) {} n
    have hr := iterate_rerankStepWith_retry_count (fun _ => 1/2) {} (n + 1)
    unfold check_confidence_with_retry_limit
    rw [hk, hr]
    norm_num
  · have h := iterate_rerankStepWith_count (fun _ => 1/2) 3
    cases hc : ((rerankStepWith (fun _ => 1/2))^[3]
        ({} : GateState)).re_rank_retry_count with
    | none => rw [hc] at h; simp at h
    | some k => rw [hc] at h; simp at h; rw [h]
  · exact iterate_rerankStepWith_retry_count _ _ 3

/-- C10: when the `confidence` key is absent from the state, the gate's
`state.get("confidence", 1)` defaults it to 1 > 0.75, so the gate returns
`"high_confidence"` (accept) immediately, whatever the retry counter holds —
a stage that fails to write a confidence value is accepted, never retried. -/
theorem c10_missing_confidence_accepted (s : GateState)
    (h : s.confidence = none) :
    check_confidence_with_retry_limit s = "high_confidence" := by
  unfold check_confidence_with_retry_limit
  rw [h]
  norm_num

/-- Witness for C10 at a concrete state (retry counter already at 5,
no confidence key). -/
theorem c10_missing_confidence_accepted_witness :
    check_confidence_with_retry_limit
      { retry_count := some 5, re_rank_retry_count := some 5 } =
      "high_confidence" :=
  c10_missing_confidence_accepted _ rfl

/-! ## Result cache key derivation (`src/review/cache.py`) -/

/-- A review as consumed by the cache key: `review.get('id', '')` and
`review.get('createdAt', review.get('created_at', ''))`
(cache.py lines 43-46). -/
structure CacheReview where
  id : ℤ
  createdAt : String
deriving DecidableEq, Repr

/-- Python's ascending tuple order on the `(review_id, created_at)` metadata
pairs: lexicographic on the components, as used by `metadata.sort()`. -/
abbrev metaLex : ℤ × String → ℤ × String → Prop :=
  Prod.Lex (· < ·) (· ≤ ·)

/-- `LLMQueryCache._hash_reviews` (cache.py lines 33-52): empty list hashes to
the sentinel `"empty_reviews"`; otherwise the sorted `(id, createdAt)` pairs
are JSON-serialised and md5-hashed.  `md5` (hexdigest of the utf-8 encoding)
and `jdump` (`json.dumps`) are abstracted as deterministic functions; Python's
stable `list.sort()` is modelled by `insertionSort` under the tuple order —
with a total antisymmetric order any correct sort returns the same list. -/
def _hash_reviews (md5 : String → String) (jdump : List (ℤ × String) → String)
    (reviews : List CacheReview) : String :=
  if reviews = [] then "empty_reviews"
  else
    md5 (jdump (List.insertionSort metaLex
      (reviews.map (fun r => (r.id, r.createdAt)))))

/-- `LLMQueryCache._generate_cache_key` (cache.py lines 54-75): md5 of the
`"|"`-joined components `llm:`, `reviews:`, `focus:` (itself md5-hashed) and
`count:`. -/
def _generate_cache_key (md5 : String → String)
    (jdump : List (ℤ × String) → String) (llm_name : String)
    (reviews : List CacheReview) (focus_instruction : String)
    (candidate_count : ℤ) : String :=
  let reviews_hash := _hash_reviews md5 jdump reviews
  let key_string := "llm:" ++ llm_name ++ "|" ++ "reviews:" ++ reviews_hash ++
    "|" ++ "focus:" ++ md5 focus_instruction ++ "|" ++ "count:" ++
    toString candidate_count
  md5 key_string

lemma insertionSort_metaLex_perm_eq {l l' : List (ℤ × String)}
    (h : l.Perm l') :
    List.insertionSort metaLex l = List.insertionSort metaLex l' :=
  List.eq_of_perm_of_sorted
    (((List.perm_insertionSort metaLex l).trans h).trans
      (List.perm_insertionSort metaLex l').symm)
    (List.sorted_insertionSort metaLex l)
    (List.sorted_insertionSort metaLex l')

/-- C3, confirmed: the cache key is invariant under any permutation of the
review list (in particular its reverse), for every choice of the abstracted
md5 / JSON-serialisation functions, because `_hash_reviews` sorts the
`(review_id, created_at)` pairs before hashing. -/
theorem c3_cache_key_order_independent (md5 : String → String)
    (jdump : List (ℤ × String) → String) (llm_name : String)
    (R R' : List CacheReview) (hperm : R.Perm R')
    (focus_instruction : String) (candidate_count : ℤ) :
    _generate_cache_key md5 jdump llm_name R focus_instruction candidate_count
      = _generate_cache_key md5 jdump llm_name R' focus_instruction
          candidate_count := by
  have hhash : _hash_reviews md5 jdump R = _hash_reviews md5 jdump R' := by
    unfold _hash_reviews
    rcases eq_or_ne R [] with h | h
    · subst h
      rw [List.perm_nil.mp hperm.symm]
    · have h' : R' ≠ [] := fun he => h (List.perm_nil.mp (he ▸ hperm))
      rw [if_neg h, if_neg h',
        insertionSort_metaLex_perm_eq (hperm.map (fun r => (r.id, r.createdAt)))]
  unfold _generate_cache_key
  rw [hhash]

/-- Witness for C3: a two-review list and its reverse produce the same key
(md5 modelled as the identity, `json.dumps` by `toString`). -/
theorem c3_cache_key_order_independent_witness :
    _generate_cache_key (fun s => s) (fun l => toString l) "gpt-4o-mini"
        [⟨1, "2024-01-01"⟩, ⟨2, "2024-01-02"⟩] "Select best reviews" 3
      = _generate_cache_key (fun s => s) (fun l => toString l) "gpt-4o-mini"
          [⟨2, "2024-01-02"⟩, ⟨1, "2024-01-01"⟩] "Select best reviews" 3 :=
  c3_cache_key_order_independent (fun s => s) (fun l => toString l)
    "gpt-4o-mini" _ _ (by decide) "Select best reviews" 3

/-! ## Multi-selector fan-in merge (`src/review/nodes/best_review_selection.py`) -/

/-- A selector-chosen review as accumulated in `state['selected_reviews']`:
the fields `aggregate_best_node` touches (`id`, `score`) plus the
representative fields it carries along (`rating`, `text`, `image_exist`,
`createdAt`). -/
structure SelReview where
  id : ℤ
  score : ℚ
  rating : ℚ
  text : String
  image_exist : Bool
  createdAt : String
deriving DecidableEq, Repr

/-- `grouped[review['id']].append(review)` for one review: the
`defaultdict(list)` keeps keys in first-occurrence order and appends within a
group. -/
def addGroup (gs : List (ℤ × List SelReview)) (r : SelReview) :
    List (ℤ × List SelReview) :=
  match gs with
  | [] => [(r.id, [r])]
  | (k, l) :: gs' =>
      if k = r.id then (k, l ++ [r]) :: gs' else (k, l) :: addGroup gs' r

/-- The grouping loop of `aggregate_best_node`
(best_review_selection.py lines 32-34). -/
def groupById (l : List SelReview) : List (ℤ × List SelReview) :=
  l.foldl addGroup []

/-- The arithmetic mean `sum(r['score'] for r in reviews) / len(reviews)`. -/
def groupMean (rs : List SelReview) : ℚ :=
  (rs.map (fun r => r.score)).sum / rs.length

/-- One merged candidate per group (best_review_selection.py lines 36-41):
`merged = reviews[0].copy(); merged['score'] = avg_rating`. -/
def mergeGroup (g : ℤ × List SelReview) : List SelReview :=
  match g.2 with
  | [] => []
  | r0 :: _ => [{ r0 with score := groupMean g.2 }]

/-- The deduplicated, score-averaged candidate list of `aggregate_best_node`
(the list shown to the downstream best-review prompt). -/
def mergeCandidates (l : List SelReview) : List SelReview :=
  (groupById l).flatMap mergeGroup

/-- The merged score recorded for review id `i`, if `i` was selected. -/
def mergedScoreOf (l : List SelReview) (i : ℤ) : Option ℚ :=
  ((mergeCandidates l).find? (fun e => e.id = i)).map (fun e => e.score)

/-- Modelled from the spec's fan-in sentence: the merged score of id `i` is
the arithmetic mean of all scores reported for `i`, independent of grouping.
Used as the specification side of the refinement proof for C6. -/
def specMergedScore (l : List SelReview) (i : ℤ) : Option ℚ :=
  let sel := l.filter (fun r => r.id = i)
  if sel = [] then none else some ((sel.map (fun r => r.score)).sum / sel.length)

def groupLookup (gs : List (ℤ × List SelReview)) (i : ℤ) :
    Option (List SelReview) :=
  (gs.find? (fun g => g.1 = i)).map (fun g => g.2)

lemma groupLookup_addGroup (gs : List (ℤ × List SelReview)) (r : SelReview)
    (i : ℤ) :
    groupLookup (addGroup gs r) i =
      if r.id = i then some ((groupLookup gs i).getD [] ++ [r])
      else groupLookup gs i := by
  induction gs with
  | nil =>
    by_cases h : r.id = i <;>
      simp [addGroup, groupLookup, List.find?, h]
  | cons g gs' ih =>
    obtain ⟨k, l⟩ := g
    by_cases hk : k = r.id
    · by_cases h : r.id = i
      · have hki : k = i := hk.trans h
        simp [addGroup, groupLookup, List.find?, hk, hki, h]
      · have hki : ¬ k = i := fun he => h (hk.symm.trans he)
        simp [addGroup, groupLookup, List.find?, hk, hki, h]
    · by_cases hki : k = i
      · have h : ¬ r.id = i := fun he => hk (hki.trans he.symm)
        have h2 : ¬ i = r.id := fun he => h he.symm
        simp [addGroup, groupLookup, List.find?, hk, hki, h, h2]
      · simp only [addGroup, if_neg hk]
        have e1 : groupLookup ((k, l) :: addGroup gs' r) i =
            groupLookup (addGroup gs' r) i := by
          simp [groupLookup, List.find?, hki]
        have e2 : groupLookup ((k, l) :: gs') i = groupLookup gs' i := by
          simp [groupLookup, List.find?, hki]
        rw [e1, e2, ih]

lemma groupLookup_foldl (l : List SelReview) (gs : List (ℤ × List SelReview))
    (i : ℤ) :
    groupLookup (List.foldl addGroup gs l) i =
      (groupLookup gs i).elim
        (if l.filter (fun r => r.id = i) = [] then none
         else some (l.filter (fun r => r.id = i)))
        (fun g => some (g ++ l.filter (fun r => r.id = i))) := by
  induction l generalizing gs with
  | nil =>
    cases h : groupLookup gs i <;> simp [h]
  | cons r l ih =>
    rw [List.foldl_cons, ih, groupLookup_addGroup]
    by_cases hr : r.id = i
    · cases h : groupLookup gs i with
      | none => simp [hr, h, List.filter_cons]
      | some g => simp [hr, h, List.filter_cons]
    · cases h : groupLookup gs i with
      | none => simp [hr, h, List.filter_cons]
      | some g => simp [hr, h, List.filter_cons]

/-- Well-formedness of the grouping structure: every group is non-empty and
all its members carry the group's id. -/
def GroupsWF (gs : List (ℤ × List SelReview)) : Prop :=
  ∀ g ∈ gs, g.2 ≠ [] ∧ ∀ r ∈ g.2, r.id = g.1

lemma groupsWF_addGroup {gs : List (ℤ × List SelReview)} (r : SelReview)
    (h : GroupsWF gs) : GroupsWF (addGroup gs r) := by
  induction gs with
  | nil =>
    intro g hg
    simp [addGroup] at hg
    subst hg
    exact ⟨by simp, by simp⟩
  | cons g0 gs' ih =>
    obtain ⟨k, l⟩ := g0
    have h0 := h (k, l) (by simp)
    have h' : GroupsWF gs' := fun g hg => h g (List.mem_cons_of_mem _ hg)
    by_cases hk : k = r.id
    · subst hk
      intro g hg
      simp only [addGroup, if_pos rfl] at hg
      rcases List.mem_cons.mp hg with hg | hg
      · subst hg
        refine ⟨by simp, ?_⟩
        intro x hx
        rcases List.mem_append.mp hx with hx | hx
        · exact h0.2 x hx
        · simp at hx; subst hx; rfl
      · exact h' g hg
    · intro g hg
      simp only [addGroup, if_neg hk] at hg
      rcases List.mem_cons.mp hg with hg | hg
      · subst hg; exact h0
      · exact ih h' g hg

lemma groupsWF_groupById (l : List SelReview) : GroupsWF (groupById l) := by
  have : ∀ gs, GroupsWF gs → GroupsWF (List.foldl addGroup gs l) := by
    induction l with
    | nil => intro gs h; exact h
    | cons r l ih =>
      intro gs h
      exact ih _ (groupsWF_addGroup r h)
  exact this [] (fun g hg => absurd hg (List.not_mem_nil g))

lemma find?_mergeGroups (gs : List (ℤ × List SelReview)) (hwf : GroupsWF gs)
    (i : ℤ) :
    ((gs.flatMap mergeGroup).find? (fun e => e.id = i)).map (fun e => e.score)
      = (groupLookup gs i).map groupMean := by
  induction gs with
  | nil => rfl
  | cons g gs' ih =>
    obtain ⟨k, rs⟩ := g
    have hg := hwf (k, rs) (by simp)
    have hwf' : GroupsWF gs' := fun g hg => hwf g (List.mem_cons_of_mem _ hg)
    cases rs with
    | nil => exact absurd rfl hg.1
    | cons r0 rest =>
      have hid : r0.id = k := hg.2 r0 (by simp)
      by_cases h : k = i
      · subst h
        simp [mergeGroup, groupLookup, List.find?, hid]
      · have hne : r0.id = i ↔ False := by
          constructor
          · intro he; exact h (hid ▸ he)
          · intro hf; exact hf.elim
        simp only [List.flatMap_cons, mergeGroup, List.find?_append]
        have : (([{ r0 with score := groupMean (r0 :: rest) }] :
            List SelReview).find? (fun e => e.id = i)) = none := by
          simp [List.find?, hne]
        rw [this]
        simp only [Option.none_or]
        have hgl : groupLookup ((k, r0 :: rest) :: gs') i =
            groupLookup gs' i := by
          simp [groupLookup, List.find?, h]
        rw [hgl]
        exact ih hwf'

lemma mergedScoreOf_eq_spec (l : List SelReview) (i : ℤ) :
    mergedScoreOf l i = specMergedScore l i := by
  unfold mergedScoreOf mergeCandidates specMergedScore
  rw [find?_mergeGroups _ (groupsWF_groupById l)]
  unfold groupById
  rw [groupLookup_foldl]
  have h0 : groupLookup [] i = none := rfl
  rw [h0]
  by_cases h : l.filter (fun r => r.id = i) = [] <;>
    simp [h, groupMean]

lemma specMergedScore_perm {l l' : List SelReview} (h : l.Perm l') (i : ℤ) :
    specMergedScore l i = specMergedScore l' i := by
  unfold specMergedScore
  have hf : (l.filter (fun r => r.id = i)).Perm
      (l'.filter (fun r => r.id = i)) := h.filter _
  have hs : ((l.filter (fun r => r.id = i)).map (fun r => r.score)).sum =
      ((l'.filter (fun r => r.id = i)).map (fun r => r.score)).sum :=
    (hf.map _).sum_eq
  have hl : (l.filter (fun r => r.id = i)).length =
      (l'.filter (fun r => r.id = i)).length := hf.length_eq
  by_cases he : l.filter (fun r => r.id = i) = []
  · have he' : l'.filter (fun r => r.id = i) = [] := by
      have hpe := hf.symm
      rw [he] at hpe
      exact hpe.eq_nil
    simp [he, he']
  · have he' : l'.filter (fun r => r.id = i) ≠ [] := by
      intro hx
      apply he
      have hpe := hf
      rw [hx] at hpe
      exact hpe.eq_nil
    simp [he, he', hs, hl]

/-- C6, confirmed: the fan-in merge of `aggregate_best_node` assigns each
selected review id the arithmetic mean of all scores reported for it
(refinement against the spec-level mean), the per-id merged scores are
invariant under reordering of the accumulated selector outputs, and on the
spec's scenario — selector A picks {1: 90, 2: 70}, selector B picks
{2: 50, 3: 60} — the merged ids are {1, 2, 3} with id 2 scored 60. -/
theorem c6_selector_fan_in_merge (l l' : List SelReview) (hperm : l.Perm l') :
    (∀ i : ℤ, mergedScoreOf l i = specMergedScore l i)
    ∧ (∀ i : ℤ, mergedScoreOf l i = mergedScoreOf l' i)
    ∧ (mergeCandidates
        [⟨1, 90, 5, "r1", false, "d1"⟩, ⟨2, 70, 4, "r2", true, "d2"⟩,
         ⟨2, 50, 4, "r2", true, "d2"⟩, ⟨3, 60, 3, "r3", false, "d3"⟩]).map
        (fun e => e.id) = [1, 2, 3]
    ∧ mergedScoreOf
        [⟨1, 90, 5, "r1", false, "d1"⟩, ⟨2, 70, 4, "r2", true, "d2"⟩,
         ⟨2, 50, 4, "r2", true, "d2"⟩, ⟨3, 60, 3, "r3", false, "d3"⟩] 2 =
        some 60 := by
  refine ⟨fun i => mergedScoreOf_eq_spec l i, fun i => ?_, by decide, ?_⟩
  · rw [mergedScoreOf_eq_spec l i, mergedScoreOf_eq_spec l' i]
    exact specMergedScore_perm hperm i
  · rw [mergedScoreOf_eq_spec]
    unfold specMergedScore
    norm_num [List.filter]
    intro h
    simp at h

/-- Witness for C6: merging the two one-review selector outputs
`[{id 1, score 80}]` and `[{id 1, score 60}]` in either order yields the same
merged score for id 1. -/
theorem c6_selector_fan_in_merge_witness :
    mergedScoreOf
      [⟨1, 80, 5, "a", false, "d"⟩, ⟨1, 60, 5, "a", false, "d"⟩] 1 =
    mergedScoreOf
      [⟨1, 60, 5, "a", false, "d"⟩, ⟨1, 80, 5, "a", false, "d"⟩] 1 :=
  (c6_selector_fan_in_merge _ _
    (List.Perm.swap ⟨1, 60, 5, "a", false, "d"⟩ ⟨1, 80, 5, "a", false, "d"⟩ [])).2.1 1

/-! ## Expired-cache sweep (`src/review/cache.py`, `clear_expired_cache` and
`_is_cache_valid`) -/

/-- A cache file as seen by the sweep: its name, whether it exists, its
modification time, and the fault-injection points of the model — whether
`stat()` raises while checking and whether `unlink()` raises while
deleting. -/
structure CacheFile where
  name : String
  fexists : Bool := true
  mtime : ℤ := 0
  statErr : Bool := false
  unlinkErr : Bool := false
deriving DecidableEq, Repr

/-- `LLMQueryCache._is_cache_valid` (cache.py lines 81-99): a missing file is
invalid; an exception while reading the modification time is caught and the
file reported invalid; otherwise the file is valid iff its age
`now - mtime` does not exceed the TTL. -/
def _is_cache_valid (now ttl : ℤ) (f : CacheFile) : Bool :=
  if ¬ f.fexists then false
  else if f.statErr then false
  else if now - f.mtime > ttl then false
  else true

/-- The sweep loop of `LLMQueryCache.clear_expired_cache`
(cache.py lines 177-192).  The whole `for` loop sits inside one
`try/except`, so an exception raised by `unlink()` aborts the remaining
sweep; the counter accumulated so far is still returned (the `except` only
logs).  Returns `(cleared_count, names of files actually deleted)`. -/
def clearExpiredGo (now ttl : ℤ) :
    List CacheFile → ℕ → List String → ℕ × List String
  | [], n, removed => (n, removed)
  | f :: rest, n, removed =>
    if _is_cache_valid now ttl f then clearExpiredGo now ttl rest n removed
    else if f.unlinkErr then (n, removed)
    else clearExpiredGo now ttl rest (n + 1) (removed ++ [f.name])

/-- `LLMQueryCache.clear_expired_cache` over the directory listing
`cache_dir.glob("*.json")`. -/
def clear_expired_cache (now ttl : ℤ) (files : List CacheFile) :
    ℕ × List String :=
  clearExpiredGo now ttl files 0 []

/-- The part of the directory the sweep actually deletes: the invalid
(expired / missing / stat-error) files that precede the first invalid file
whose deletion raises. -/
def sweptPart (now ttl : ℤ) (files : List CacheFile) : List CacheFile :=
  (files.filter (fun f => ! _is_cache_valid now ttl f)).takeWhile
    (fun f => ! f.unlinkErr)

lemma clearExpiredGo_eq (now ttl : ℤ) (files : List CacheFile) :
    ∀ (n : ℕ) (removed : List String),
      clearExpiredGo now ttl files n removed =
        (n + (sweptPart now ttl files).length,
         removed ++ (sweptPart now ttl files).map (fun f => f.name)) := by
  induction files with
  | nil => intro n removed; simp [clearExpiredGo, sweptPart]
  | cons f rest ih =>
    intro n removed
    by_cases hv : _is_cache_valid now ttl f
    · simp only [clearExpiredGo, if_pos hv]
      rw [ih]
      have hs : sweptPart now ttl (f :: rest) = sweptPart now ttl rest := by
        simp [sweptPart, List.filter_cons, hv]
      rw [hs]
    · by_cases hu : f.unlinkErr
      · simp only [clearExpiredGo, if_neg hv, if_pos hu]
        have hs : sweptPart now ttl (f :: rest) = [] := by
          simp [sweptPart, List.filter_cons, hv, List.takeWhile, hu]
        rw [hs]
        simp
      · simp only [clearExpiredGo, if_neg hv, if_neg hu]
        rw [ih]
        have hs : sweptPart now ttl (f :: rest) =
            f :: sweptPart now ttl rest := by
          simp [sweptPart, List.filter_cons, hv, List.takeWhile, hu]
        rw [hs]
        simp [Nat.add_comm, Nat.add_assoc, Nat.add_left_comm]

lemma takeWhile_eq_self_of_all {p : CacheFile → Bool} :
    ∀ {l : List CacheFile}, (∀ f ∈ l, p f = true) → l.takeWhile p = l := by
  intro l
  induction l with
  | nil => intro _; rfl
  | cons f rest ih =>
    intro h
    have hf := h f (by simp)
    simp [List.takeWhile, hf, ih (fun g hg => h g (List.mem_cons_of_mem _ hg))]

/-- C8, amended.  The sweep deletes exactly the invalid files (older than the
TTL, missing, or failing the `stat` check — the latter are deleted, not
skipped) that precede the first invalid file whose deletion raises, and
returns their count; in particular, when no deletion error occurs it removes
every entry older than the TTL and returns the full count.  A deletion error
is caught outside the loop, so it aborts the sweep of the remaining files —
the error does not escape, but the remaining expired files survive. -/
theorem c8_expired_cache_sweep (now ttl : ℤ) (files : List CacheFile) :
    clear_expired_cache now ttl files =
      ((sweptPart now ttl files).length,
       (sweptPart now ttl files).map (fun f => f.name))
    ∧ ((∀ f ∈ files, f.unlinkErr = false) →
        clear_expired_cache now ttl files =
          ((files.filter (fun f => ! _is_cache_valid now ttl f)).length,
           (files.filter (fun f => ! _is_cache_valid now ttl f)).map
             (fun f => f.name))) := by
  constructor
  · have h := clearExpiredGo_eq now ttl files 0 []
    simpa [clear_expired_cache] using h
  · intro hnoerr
    have h := clearExpiredGo_eq now ttl files 0 []
    have hs : sweptPart now ttl files =
        files.filter (fun f => ! _is_cache_valid now ttl f) := by
      unfold sweptPart
      refine takeWhile_eq_self_of_all ?_
      intro f hf
      have := hnoerr f (List.mem_of_mem_filter hf)
      simp [this]
    rw [hs] at h
    simpa [clear_expired_cache] using h

/-- Witness for C8 on a concrete directory: two expired files and one fresh
file, no deletion errors — both expired files are removed and counted. -/
theorem c8_expired_cache_sweep_witness :
    clear_expired_cache 100000 10
      [{ name := "a.json", mtime := 0 }, { name := "fresh.json", mtime := 99999 },
       { name := "b.json", mtime := 5 }] = (2, ["a.json", "b.json"]) :=
  ((c8_expired_cache_sweep 100000 10
    [{ name := "a.json", mtime := 0 }, { name := "fresh.json", mtime := 99999 },
     { name := "b.json", mtime := 5 }]).2 (by decide)).trans (by decide)

/-- C8, counterexample to the claim as stated.  With TTL 10 at time 100000,
both `a.json` (deletion raises) and `b.json` are older than the TTL, yet the
sweep returns count 0 and deletes nothing: the error on `a.json` aborts the
sweep instead of skipping that file, so the expired `b.json` is neither
removed nor counted.  Moreover a fresh file whose validity check raises
(`stat` error) is deleted rather than skipped. -/
theorem c8_expired_cache_sweep_counterexample :
    _is_cache_valid 100000 10 { name := "b.json", mtime := 5 } = false
    ∧ clear_expired_cache 100000 10
        [{ name := "a.json", mtime := 0, unlinkErr := true },
         { name := "b.json", mtime := 5 }] = (0, [])
    ∧ ¬ ("b.json" ∈ (clear_expired_cache 100000 10
        [{ name := "a.json", mtime := 0, unlinkErr := true },
         { name := "b.json", mtime := 5 }]).2)
    ∧ clear_expired_cache 100000 10
        [{ name := "c.json", mtime := 100000, statErr := true }] =
        (1, ["c.json"]) := by
  refine ⟨by decide, by decide, by decide, by decide⟩

/-! ## Graph construction validation (`src/util/graph_generator.py`) -/

/-- `ConditionalEdge` (graph_generator.py lines 7-11) with the condition
function abstracted away: only the result-to-destination mapping matters for
graph construction (the builder registers it without validation). -/
structure CondEdge where
  destinations : List (String × String) := []
deriving DecidableEq, Repr

/-- `AugmentedNode` (graph_generator.py lines 14-22); the node implementation
callable is irrelevant to construction-time validation and omitted. -/
structure AugmentedNode where
  name : String
  is_start : Bool := false
  is_end : Bool := false
  conditional_edge : Option CondEdge := none
  destinations : List String := []
deriving DecidableEq, Repr

/-- `add_nodes` (graph_generator.py lines 71-78): raises iff the node list is
empty; adding the nodes themselves to the builder cannot fail. -/
def add_nodes (nodes : List AugmentedNode) : Except String Unit :=
  if nodes = [] then .error "no nodes" else .ok ()

/-- `set_entry_point` (graph_generator.py lines 81-98): raises on an empty
list and when no node has `is_start`; otherwise the FIRST start node found
becomes the entry point — a second start node is never examined. -/
def set_entry_point (nodes : List AugmentedNode) : Except String String :=
  if nodes = [] then .error "no nodes"
  else
    match nodes.find? (fun n => n.is_start) with
    | some n => .ok n.name
    | none => .error "no entry point"

/-- `add_edges` (graph_generator.py lines 101-129): raises only on an empty
list.  A conditional edge takes precedence over plain destinations (`elif`);
a plain destination naming an unknown node is silently skipped (no edge, no
error). -/
def add_edges (nodes : List AugmentedNode) :
    Except String (List (String × String)) :=
  if nodes = [] then .error "no nodes"
  else .ok (nodes.flatMap (fun n =>
    match n.conditional_edge with
    | some ce => ce.destinations.map (fun d => (n.name, d.2))
    | none => n.destinations.flatMap (fun d =>
        match nodes.find? (fun m => m.name = d) with
        | some dn => [(n.name, dn.name)]
        | none => [])))

/-- `set_end_points` (graph_generator.py lines 132-153): raises on an empty
list, when no node has `is_end`, and as soon as a second `is_end` node is
seen. -/
def set_end_points (nodes : List AugmentedNode) : Except String String :=
  if nodes = [] then .error "no nodes"
  else
    match nodes.filter (fun n => n.is_end) with
    | [] => .error "no end point"
    | [n] => .ok n.name
    | _ => .error "multiple end points"

/-- `create_graph` (graph_generator.py lines 57-68): the four stages run in
sequence and the first raised `ValueError` propagates; the final
`compile()` call is external and modelled as success. -/
def create_graph (nodes : List AugmentedNode) : Except String Unit :=
  match add_nodes nodes with
  | .error e => .error e
  | .ok _ =>
    match set_entry_point nodes with
    | .error e => .error e
    | .ok _ =>
      match add_edges nodes with
      | .error e => .error e
      | .ok _ =>
        match set_end_points nodes with
        | .error e => .error e
        | .ok _ => .ok ()

def exceptOk {α : Type} : Except String α → Bool
  | .ok _ => true
  | .error _ => false

lemma create_graph_ok_iff (nodes : List AugmentedNode) :
    exceptOk (create_graph nodes) = true ↔
      ((nodes.find? (fun n => n.is_start)).isSome
        ∧ (nodes.filter (fun n => n.is_end)).length = 1) := by
  by_cases hnil : nodes = []
  · subst hnil
    simp [create_graph, add_nodes, exceptOk]
  · unfold create_graph add_nodes set_entry_point add_edges set_end_points
    rw [if_neg hnil, if_neg hnil, if_neg hnil, if_neg hnil]
    cases hf : nodes.find? (fun n => n.is_start) with
    | none => simp [exceptOk, hf]
    | some n =>
      cases he : nodes.filter (fun n => n.is_end) with
      | nil => simp [exceptOk, hf, he]
      | cons m rest =>
        cases rest with
        | nil => simp [exceptOk, hf, he]
        | cons m2 rest2 => simp [exceptOk, hf, he]

/-- C9, amended.  Declaring zero start nodes, zero end nodes, or multiple end
nodes makes graph construction raise before execution, and a list with at
least one start node and exactly one end node constructs without raising —
but, contrary to the claim, MULTIPLE start nodes do not raise: the entry-point
loop breaks at the first start node and ignores the rest. -/
theorem c9_graph_configuration_validation (nodes : List AugmentedNode) :
    (nodes.find? (fun n => n.is_start) = none →
      exceptOk (create_graph nodes) = false)
    ∧ (nodes.filter (fun n => n.is_end) = [] →
      exceptOk (create_graph nodes) = false)
    ∧ (2 ≤ (nodes.filter (fun n => n.is_end)).length →
      exceptOk (create_graph nodes) = false)
    ∧ ((nodes.find? (fun n => n.is_start)).isSome →
      (nodes.filter (fun n => n.is_end)).length = 1 →
      exceptOk (create_graph nodes) = true) := by
  refine ⟨?_, ?_, ?_, ?_⟩
  · intro h
    rcases hb : exceptOk (create_graph nodes) with _ | _
    · rfl
    · have := (create_graph_ok_iff nodes).mp hb
      rw [h] at this
      simp at this
  · intro h
    rcases hb : exceptOk (create_graph nodes) with _ | _
    · rfl
    · have := (create_graph_ok_iff nodes).mp hb
      rw [h] at this
      simp at this
  · intro h
    rcases hb : exceptOk (create_graph nodes) with _ | _
    · rfl
    · have := (create_graph_ok_iff nodes).mp hb
      omega
  · intro h1 h2
    exact (create_graph_ok_iff nodes).mpr ⟨h1, h2⟩

/-- Witness for C9: a well-formed three-node pipeline (one start, one middle,
one end) constructs without raising, and a pipeline with no end node
raises. -/
theorem c9_graph_configuration_validation_witness :
    exceptOk (create_graph
      [{ name := "load", is_start := true, destinations := ["work"] },
       { name := "work", destinations := ["done"] },
       { name := "done", is_end := true }]) = true
    ∧ exceptOk (create_graph
      [{ name := "load", is_start := true, destinations := [] }]) = false :=
  ⟨(c9_graph_configuration_validation _).2.2.2 (by decide) (by decide),
   (c9_graph_configuration_validation _).2.1 (by decide)⟩

/-- C9, counterexample to the claim as stated: a node list declaring TWO
start nodes (plus exactly one end node) does NOT raise a configuration
error — construction succeeds, silently using the first start node as the
entry point. -/
theorem c9_multiple_starts_counterexample :
    create_graph
      [{ name := "s1", is_start := true, destinations := ["fin"] },
       { name := "s2", is_start := true, destinations := ["fin"] },
       { name := "fin", is_end := true }] = Except.ok ()
    ∧ set_entry_point
      [{ name := "s1", is_start := true, destinations := ["fin"] },
       { name := "s2", is_start := true, destinations := ["fin"] },
       { name := "fin", is_end := true }] = Except.ok "s1" := by
  exact ⟨rfl, rfl⟩

/-! ## Candidate fusion & ranking (`src/review/nodes/fusion.py`,
candidate data model from `src/review/states.py`) -/

/-- `CandidateScore` (states.py lines 14-17): one per-perspective score.
`score` is a Python int; the regex parser clamps it to [0, 100]. -/
structure CandidateScore where
  score : ℤ
  perspective : String
deriving DecidableEq, Repr

/-- `Candidate` (states.py lines 20-23).  Review ids are modelled as strings
throughout: the scoring pipeline converts ids with `str(...)` and split-part
ids (`"5_part1"`) are strings, so the string form is the common currency. -/
structure Candidate where
  review_id : String
  score : List CandidateScore
deriving DecidableEq, Repr

/-- A candidate after `fuse_candidates_implementation` attached its
`avg_score` field. -/
structure ProcessedCandidate where
  review_id : String
  score : List CandidateScore
  avg_score : ℚ
deriving DecidableEq, Repr

/-- `sum(s["score"] for s in scores) / len(scores)` as exact rational
arithmetic. -/
def candidateAvg (scores : List CandidateScore) : ℚ :=
  (scores.map (fun s => (s.score : ℚ))).sum / (scores.length : ℚ)
def pyInsertDesc {α : Type} (key : α → ℚ) (a : α) : List α → List α
  | [] => [a]
  | b :: l => if key b ≤ key a then a :: b :: l else b :: pyInsertDesc key a l

def pyStableSortDesc {α : Type} (key : α → ℚ) : List α → List α
  | [] => []
  | a :: l => pyInsertDesc key a (pyStableSortDesc key l)

lemma pyInsertDesc_perm {α : Type} (key : α → ℚ) (a : α) (l : List α) :
    (pyInsertDesc key a l).Perm (a :: l) := by
  induction l with
  | nil => simp [pyInsertDesc]
  | cons b l ih =>
    by_cases h : key b ≤ key a
    · simp [pyInsertDesc, h]
    · simp only [pyInsertDesc, if_neg h]
      exact (ih.cons b).trans (List.Perm.swap a b l)

lemma pyStableSortDesc_perm {α : Type} (key : α → ℚ) (l : List α) :
    (pyStableSortDesc key l).Perm l := by
  induction l with
  | nil => simp [pyStableSortDesc]
  | cons a l ih =>
    exact (pyInsertDesc_perm key a (pyStableSortDesc key l)).trans (ih.cons a)

lemma mem_pyInsertDesc {α : Type} {key : α → ℚ} {a x : α} {l : List α} :
    x ∈ pyInsertDesc key a l ↔ x = a ∨ x ∈ l := by
  rw [(pyInsertDesc_perm key a l).mem_iff]
  simp

lemma pairwise_pyInsertDesc {α : Type} (key : α → ℚ) (a : α) {l : List α}
    (h : List.Pairwise (fun x y => key y ≤ key x) l) :
    List.Pairwise (fun x y => key y ≤ key x) (pyInsertDesc key a l) := by
  induction l with
  | nil => simp [pyInsertDesc]
  | cons b l ih =>
    rcases List.pairwise_cons.mp h with ⟨hb, hl⟩
    by_cases hba : key b ≤ key a
    · simp only [pyInsertDesc, if_pos hba]
      refine List.pairwise_cons.mpr ⟨?_, h⟩
      intro x hx
      rcases List.mem_cons.mp hx with hx | hx
      · subst hx; exact hba
      · exact le_trans (hb x hx) hba
    · simp only [pyInsertDesc, if_neg hba]
      refine List.pairwise_cons.mpr ⟨?_, ih hl⟩
      intro x hx
      rcases mem_pyInsertDesc.mp hx with hx | hx
      · subst hx; exact le_of_lt (lt_of_not_le hba)
      · exact hb x hx

lemma pairwise_pyStableSortDesc {α : Type} (key : α → ℚ) (l : List α) :
    List.Pairwise (fun x y => key y ≤ key x) (pyStableSortDesc key l) := by
  induction l with
  | nil => simp [pyStableSortDesc]
  | cons a l ih => exact pairwise_pyInsertDesc key a ih

lemma filter_pyInsertDesc {α : Type} (key : α → ℚ) (a : α) (l : List α)
    (q : ℚ) :
    (pyInsertDesc key a l).filter (fun x => decide (key x = q)) =
      if key a = q then a :: l.filter (fun x => decide (key x = q))
      else l.filter (fun x => decide (key x = q)) := by
  induction l with
  | nil =>
    by_cases h : key a = q <;> simp [pyInsertDesc, List.filter, h]
  | cons b l ih =>
    by_cases hba : key b ≤ key a
    · rw [show pyInsertDesc key a (b :: l) = a :: b :: l from by
        simp [pyInsertDesc, hba]]
      by_cases ha : key a = q <;> by_cases hb : key b = q <;>
        simp [List.filter_cons, ha, hb]
    · have hlt : key a < key b := lt_of_not_le hba
      rw [show pyInsertDesc key a (b :: l) = b :: pyInsertDesc key a l from by
        simp [pyInsertDesc, hba]]
      by_cases ha : key a = q
      · have hb : ¬ key b = q := by
          intro hbq
          rw [ha, hbq] at hlt
          exact lt_irrefl q hlt
        simp [List.filter_cons, ha, hb, ih]
      · by_cases hb : key b = q <;>
          simp [List.filter_cons, ha, hb, ih]

lemma filter_pyStableSortDesc {α : Type} (key : α → ℚ) (l : List α) (q : ℚ) :
    (pyStableSortDesc key l).filter (fun x => decide (key x = q)) =
      l.filter (fun x => decide (key x = q)) := by
  induction l with
  | nil => rfl
  | cons a l ih =>
    rw [pyStableSortDesc, filter_pyInsertDesc, ih]
    by_cases h : key a = q <;> simp [List.filter_cons, h]

/-- The average-computation loop of `fuse_candidates_implementation`
(fusion.py lines 26-35): a candidate with scores receives `avg_score`; one
with an empty score list is logged and NOT added (no `avg_score` field is
ever assigned to it). -/
def fusionProcessed (candidates : List Candidate) : List ProcessedCandidate :=
  candidates.flatMap (fun c =>
    if c.score = [] then []
    else [⟨c.review_id, c.score, candidateAvg c.score⟩])

/-- `if approved_candidates: candidates = approved_candidates`
(fusion.py lines 15-18): a non-empty human-approved set replaces the raw
candidate set. -/
def effectiveCandidates (candidates approved : List Candidate) : List Candidate :=
  if approved ≠ [] then approved else candidates

/-- `fuse_candidates_implementation` (fusion.py lines 10-45): returns the
`selected_candidates` value — the processed candidates stable-sorted
descending by `avg_score` (Python's `sorted(..., reverse=True)`, modelled by
the stable `pyStableSortDesc`) and truncated to the top 10. -/
def fuse_candidates_implementation (candidates approved : List Candidate) :
    List ProcessedCandidate :=
  let cands := effectiveCandidates candidates approved
  if cands = [] then []
  else (pyStableSortDesc (fun p => p.avg_score) (fusionProcessed cands)).take 10

lemma fusionProcessed_eq (cands : List Candidate) :
    fusionProcessed cands =
      (cands.filter (fun c => ! c.score.isEmpty)).map
        (fun c => ⟨c.review_id, c.score, candidateAvg c.score⟩) := by
  induction cands with
  | nil => rfl
  | cons c rest ih =>
    by_cases h : c.score = [] <;>
      simp [fusionProcessed, List.filter_cons, h, List.isEmpty_iff, ih,
        fusionProcessed] at ih ⊢ <;> exact ih

lemma mem_fusionProcessed {cands : List Candidate} {p : ProcessedCandidate}
    (h : p ∈ fusionProcessed cands) :
    p.score ≠ [] ∧ p.avg_score = candidateAvg p.score := by
  rw [fusionProcessed_eq] at h
  obtain ⟨c, hc, hp⟩ := List.mem_map.mp h
  have hne : ¬ c.score.isEmpty := by
    have := List.of_mem_filter hc
    simpa using this
  subst hp
  exact ⟨by simpa [List.isEmpty_iff] using hne, rfl⟩

/-- C5, amended.  `fuse_candidates_implementation` attaches to every
candidate with a non-empty score list an `avg_score` equal to the arithmetic
mean of its scores, drops candidates with an empty score list before ranking
(they are never assigned an `avg_score` — in particular not 0 — which is the
one correction to the claim), stable-sorts the rest descending by
`avg_score` with ties kept in discovery order, and truncates to the TOP 10:
the output is descending, is a sub-permutation of the processed candidates
of length exactly `min 10 N` (N the number of processed candidates), every
processed candidate left out of the output scores no higher than every
retained one, and within an `avg_score` tie class the output preserves
discovery order; it never raises (it is a total function). -/
theorem c5_fusion_ranking_contract (candidates approved : List Candidate) :
    fusionProcessed (effectiveCandidates candidates approved) =
      ((effectiveCandidates candidates approved).filter
        (fun c => ! c.score.isEmpty)).map
        (fun c => ⟨c.review_id, c.score, candidateAvg c.score⟩)
    ∧ (∀ p ∈ fuse_candidates_implementation candidates approved,
        p.score ≠ [] ∧ p.avg_score = candidateAvg p.score)
    ∧ List.Pairwise (fun a b => b.avg_score ≤ a.avg_score)
        (fuse_candidates_implementation candidates approved)
    ∧ (fuse_candidates_implementation candidates approved).length =
        min 10 (fusionProcessed (effectiveCandidates candidates
          approved)).length
    ∧ List.Subperm (fuse_candidates_implementation candidates approved)
        (fusionProcessed (effectiveCandidates candidates approved))
    ∧ (∀ x ∈ fuse_candidates_implementation candidates approved,
        ∀ y ∈ fusionProcessed (effectiveCandidates candidates approved),
          y ∉ fuse_candidates_implementation candidates approved →
          y.avg_score ≤ x.avg_score)
    ∧ (∀ q : ℚ,
        List.Sublist
          ((fuse_candidates_implementation candidates approved).filter
            (fun p => decide (p.avg_score = q)))
          ((fusionProcessed (effectiveCandidates candidates approved)).filter
            (fun p => decide (p.avg_score = q)))) := by
  set cands := effectiveCandidates candidates approved with hcands
  by_cases hnil : cands = []
  · refine ⟨fusionProcessed_eq cands, ?_, ?_, ?_, ?_, ?_, ?_⟩ <;>
      simp [fuse_candidates_implementation, ← hcands, hnil, fusionProcessed]
  · have hout : fuse_candidates_implementation candidates approved =
        (pyStableSortDesc (fun p => p.avg_score)
          (fusionProcessed cands)).take 10 := by
      simp [fuse_candidates_implementation, ← hcands, hnil]
    refine ⟨fusionProcessed_eq cands, ?_, ?_, ?_, ?_, ?_, ?_⟩
    · intro p hp
      rw [hout] at hp
      have hp2 : p ∈ pyStableSortDesc (fun p => p.avg_score)
          (fusionProcessed cands) :=
        List.mem_of_mem_take hp
      have hp3 : p ∈ fusionProcessed cands :=
        (pyStableSortDesc_perm _ _).mem_iff.mp hp2
      exact mem_fusionProcessed hp3
    · rw [hout]
      exact List.Pairwise.sublist (List.take_sublist _ _)
        (pairwise_pyStableSortDesc _ _)
    · rw [hout, List.length_take, (pyStableSortDesc_perm _ _).length_eq]
    · rw [hout]
      exact ((List.take_sublist _ _).subperm).trans
        (pyStableSortDesc_perm _ _).subperm
    · intro x hx y hy hyn
      rw [hout] at hx hyn
      have hsplit : pyStableSortDesc (fun p => p.avg_score)
          (fusionProcessed cands) =
          (pyStableSortDesc (fun p => p.avg_score)
            (fusionProcessed cands)).take 10 ++
          (pyStableSortDesc (fun p => p.avg_score)
            (fusionProcessed cands)).drop 10 :=
        (List.take_append_drop 10 _).symm
      have hy2 : y ∈ (pyStableSortDesc (fun p => p.avg_score)
          (fusionProcessed cands)).take 10 ++
          (pyStableSortDesc (fun p => p.avg_score)
            (fusionProcessed cands)).drop 10 := by
        rw [← hsplit]
        exact (pyStableSortDesc_perm _ _).mem_iff.mpr hy
      have hyd : y ∈ (pyStableSortDesc (fun p => p.avg_score)
          (fusionProcessed cands)).drop 10 := by
        rcases List.mem_append.mp hy2 with h | h
        · exact absurd h hyn
        · exact h
      have hpw := pairwise_pyStableSortDesc (fun p => p.avg_score)
        (fusionProcessed cands)
      rw [hsplit] at hpw
      exact (List.pairwise_append.mp hpw).2.2 x hx y hyd
    · intro q
      rw [hout]
      have h1 := (List.take_sublist 10 (pyStableSortDesc
        (fun p => p.avg_score) (fusionProcessed cands))).filter
        (fun p => decide (p.avg_score = q))
      rwa [filter_pyStableSortDesc] at h1

/-- C5, counterexample to the claim as stated: a candidate with an empty
score list never "yields `avg_score == 0`" — it is dropped before the
average-computation stage, so no processed record (with any `avg_score`, let
alone 0) exists for it; it is indeed excluded from the ranked output. -/
theorem c5_empty_scores_counterexample :
    fusionProcessed [⟨"7", []⟩] = []
    ∧ ¬ (∃ p ∈ fusionProcessed [⟨"7", []⟩], p.avg_score = 0)
    ∧ fuse_candidates_implementation [⟨"7", []⟩] [] = [] := by
  refine ⟨rfl, by simp [fusionProcessed], rfl⟩

/-! ## Python string primitives used by the scoring pipeline

`str.strip`, `str.split()` (whitespace), `re.findall(r'\d+', s)`, `int(...)`,
`re.search(r'리뷰\s*(\d+)', line)`, `line.split(':', 1)`, and
`re.split(r'(?<=[.!?])\s+', text)` — each embedded over the character
list of the string. -/

/-- Python's default whitespace set (`str.strip` / `\s` on ASCII). -/
def isPySpace (c : Char) : Bool :=
  c = ' ' ∨ c = '\t' ∨ c = '\n' ∨ c = '\x0d' ∨ c = '\x0b' ∨ c = '\x0c'

/-- `str.strip()`. -/
def pyStrip (s : String) : String :=
  String.mk (((s.toList.dropWhile isPySpace).reverse.dropWhile isPySpace).reverse)

def pySplitWsGo : List Char → List Char → List String
  | [], cur => if cur = [] then [] else [String.mk cur.reverse]
  | c :: rest, cur =>
    if isPySpace c then
      if cur = [] then pySplitWsGo rest []
      else String.mk cur.reverse :: pySplitWsGo rest []
    else pySplitWsGo rest (c :: cur)

/-- `str.split()` with no argument: split on whitespace runs, no empties. -/
def pySplitWs (s : String) : List String := pySplitWsGo s.toList []

def digitRunsGo : List Char → List Char → List String
  | [], cur => if cur = [] then [] else [String.mk cur.reverse]
  | c :: rest, cur =>
    if c.isDigit then digitRunsGo rest (c :: cur)
    else if cur = [] then digitRunsGo rest []
    else String.mk cur.reverse :: digitRunsGo rest []

/-- `re.findall(r'\d+', s)`: the maximal digit runs of `s`, in order. -/
def digitRuns (s : String) : List String := digitRunsGo s.toList []

/-- `int(...)` on a digit run (always non-negative). -/
def natOfDigits (s : String) : ℕ :=
  s.toList.foldl (fun n c => n * 10 + (c.toNat - '0'.toNat)) 0

def findReviewIdxGo : List Char → Option String
  | [] => none
  | c :: rest =>
    if c = '리' then
      match rest with
      | c2 :: rest2 =>
        if c2 = '뷰' then
          let digits := (rest2.dropWhile isPySpace).takeWhile Char.isDigit
          if digits = [] then findReviewIdxGo rest
          else some (String.mk digits)
        else findReviewIdxGo rest
      | [] => none
    else findReviewIdxGo rest

/-- `re.search(r'리뷰\s*(\d+)', line)`: the first occurrence of `리뷰`
followed by optional whitespace and at least one digit; returns the digit
group.  (Backtracking into `\s*` cannot help, since a shorter whitespace
match leaves a whitespace character where a digit is required.) -/
def findReviewIdx (s : String) : Option String := findReviewIdxGo s.toList

/-- `line.split(':', 1)` (only used under a `':' in line` guard). -/
def splitColonOnce (s : String) : String × String :=
  match s.splitOn ":" with
  | [] => (s, "")
  | a :: rest => (a, String.intercalate ":" rest)

def splitSentencesGo : List Char → List Char → Option Char → List String
  | [], cur, _ => [String.mk cur.reverse]
  | c :: rest, cur, prev =>
    if isPySpace c ∧ (prev = some '.' ∨ prev = some '!' ∨ prev = some '?') then
      String.mk cur.reverse ::
        splitSentencesGo (rest.dropWhile isPySpace) [] (some ' ')
    else
      splitSentencesGo rest (c :: cur) (some c)
termination_by l _ _ => l.length
decreasing_by
  · simp only [List.length_cons]
    exact Nat.lt_succ_of_le (List.dropWhile_sublist isPySpace).length_le
  · simp

/-- `TextChunker._split_sentences` (token_estimator.py lines 307-314):
`re.split(r'(?<=[.!?])\s+', text)` followed by strip-and-drop-empties. -/
def splitSentences (text : String) : List String :=
  ((splitSentencesGo text.toList [] none).map pyStrip).filter (fun s => s ≠ "")

/-! ## Token estimation and text chunking (`src/util/token_estimator.py`)

`estimate_tokens` consults the external `tiktoken` BPE encoder when
available, falling back to a character-count heuristic (`len(text) // 3`)
otherwise; the estimator is therefore a function parameter `est` throughout,
and the concrete fallback is embedded as `fallbackEstimate`. -/

/-- The fixed prompt template whose token count `create_review_chunks` uses
as per-chunk overhead (scoring.py lines 64-74), transcribed verbatim
(236 code points). -/
def basePromptTemplate : String :=
  "\n        다음 리뷰들을 \x7b\x7d 관점에서 평가해주세요.\n        평가 기준: \x7b\x7d\n        \n        평가 요청사항:\n        1. 각 리뷰를 위 기준에 따라 0-100점 사이의 점수를 매겨주세요\n        2. 응답 형식: \"리뷰 ID: 점수\" (예: \"review_1: 85\")\n        3. 모든 리뷰에 대한 점수를 한 줄씩 응답해주세요\n        \n        점수:\n    "

/-- The character-count fallback of `estimate_tokens`
(token_estimator.py line 143): `len(text) // 3`. -/
def fallbackEstimate (s : String) : ℕ := s.length / 3

/-- `base_prompt_tokens = estimate_tokens(<template>, model)`
(scoring.py line 64). -/
def basePromptTokens (est : String → ℕ) : ℕ := est basePromptTemplate

structure WordAcc where
  chunks : List String
  cur : List String
  tokens : ℕ

/-- One step of `TextChunker._chunk_by_tokens`
(token_estimator.py lines 277-299). -/
def chunkByTokensStep (est : String → ℕ) (maxTok : ℕ) (acc : WordAcc)
    (w : String) : WordAcc :=
  let wt := est (w ++ " ")
  if acc.tokens + wt > maxTok ∧ acc.cur ≠ [] then
    { chunks := acc.chunks ++ [String.intercalate " " acc.cur],
      cur := [w], tokens := wt }
  else
    { acc with cur := acc.cur ++ [w], tokens := acc.tokens + wt }

def chunkByTokensRaw (est : String → ℕ) (maxTok : ℕ) (text : String) :
    List String :=
  let acc := (pySplitWs text).foldl (chunkByTokensStep est maxTok) ⟨[], [], 0⟩
  acc.chunks ++ (if acc.cur ≠ [] then [String.intercalate " " acc.cur] else [])

/-- The overlap-collection loop of `TextChunker._add_overlaps`
(token_estimator.py lines 329-340): take words from the end of the previous
chunk while they fit in the overlap budget, stop at the first that does
not. -/
def overlapWordsGo (est : String → ℕ) (cap : ℕ) :
    List String → List String → ℕ → List String
  | [], acc, _ => acc
  | w :: rest, acc, t =>
    let wt := est (w ++ " ")
    if t + wt ≤ cap then overlapWordsGo est cap rest (w :: acc) (t + wt)
    else acc

/-- `TextChunker._add_overlaps` (token_estimator.py lines 316-350). -/
def addOverlaps (est : String → ℕ) (cap : ℕ) (chunks : List String) :
    List String :=
  match chunks with
  | [] => []
  | c0 :: rest =>
    if rest = [] then chunks
    else c0 :: (List.zip chunks rest).map (fun pc =>
      let ow := overlapWordsGo est cap (pySplitWs pc.1).reverse [] 0
      if ow ≠ [] then String.intercalate " " ow ++ " " ++ pc.2 else pc.2)

/-- `TextChunker._chunk_by_tokens` including its trailing overlap pass. -/
def chunkByTokens (est : String → ℕ) (maxTok cap : ℕ) (text : String) :
    List String :=
  let chunks := chunkByTokensRaw est maxTok text
  if cap > 0 ∧ chunks.length > 1 then addOverlaps est cap chunks else chunks

structure SentAcc where
  chunks : List String
  cur : String
  tokens : ℕ

/-- One step of `TextChunker._chunk_by_sentences`
(token_estimator.py lines 228-275): an oversized sentence is re-chunked by
tokens, all but the last piece are emitted and the last becomes the new
accumulator; otherwise the sentence is appended to or starts the current
chunk. -/
def chunkBySentencesStep (est : String → ℕ) (maxTok cap : ℕ) (acc : SentAcc)
    (sentence : String) : SentAcc :=
  let st := est sentence
  if st > maxTok then
    let flushed := if acc.cur ≠ "" then acc.chunks ++ [pyStrip acc.cur]
      else acc.chunks
    let curT := if acc.cur ≠ "" then 0 else acc.tokens
    let sentence_chunks := chunkByTokens est maxTok cap sentence
    match sentence_chunks.getLast? with
    | some lastc =>
      { chunks := flushed ++ sentence_chunks.dropLast, cur := lastc,
        tokens := est lastc }
    | none => { chunks := flushed, cur := "", tokens := curT }
  else if acc.tokens + st > maxTok ∧ acc.cur ≠ "" then
    { chunks := acc.chunks ++ [pyStrip acc.cur], cur := sentence, tokens := st }
  else
    { chunks := acc.chunks,
      cur := if acc.cur ≠ "" then acc.cur ++ " " ++ sentence else sentence,
      tokens := acc.tokens + st }

/-- `TextChunker._chunk_by_sentences` including its trailing overlap pass. -/
def chunkBySentences (est : String → ℕ) (maxTok cap : ℕ) (text : String) :
    List String :=
  let acc := (splitSentences text).foldl (chunkBySentencesStep est maxTok cap)
    ⟨[], "", 0⟩
  let chunks := acc.chunks ++
    (if pyStrip acc.cur ≠ "" then [pyStrip acc.cur] else [])
  if cap > 0 ∧ chunks.length > 1 then addOverlaps est cap chunks else chunks

/-- `TextChunker.chunk_text` with `preserve_sentences=True`
(token_estimator.py lines 167-191): empty / whitespace-only text produces no
chunks; text within the token limit is one chunk; otherwise split at
sentence boundaries.  `cap` is the chunker's `chunk_overlap_tokens`
(default 200). -/
def chunk_text (est : String → ℕ) (maxTok cap : ℕ) (text : String) :
    List String :=
  if text = "" ∨ pyStrip text = "" then []
  else if est text ≤ maxTok then [text]
  else chunkBySentences est maxTok cap text

/-! ## Review chunking (`src/review/nodes/scoring.py`, `create_review_chunks`) -/

/-- A review dict as the scoring pipeline sees it.  Ids are strings (the
code converts ids with `str(...)` and split-part ids like `"5_part1"` are
strings); absent dict keys are the field defaults. -/
structure SReview where
  id : String
  text : String := ""
  cleaned_text : Option String := none
  is_split : Bool := false
  original_id : Option String := none
  part_number : Option ℕ := none
  total_parts : Option ℕ := none
deriving DecidableEq, Repr

/-- `f"리뷰 {i} (ID: {rid}): {text}\n\n"` — the per-review line used both
when estimating chunk sizes (scoring.py line 85) and when rendering the
prompt (line 173). -/
def reviewLine (i : ℕ) (rid : String) (text : String) : String :=
  "리뷰 " ++ toString i ++ " (ID: " ++ rid ++ "): " ++ text ++ "\n\n"

/-- `review.get('cleaned_text') or clean_html_text(review.get('text', ''))`
(scoring.py line 172): Python's `or` falls through on `None` AND on the
empty string. -/
def resolvedText (clean : String → String) (r : SReview) : String :=
  match r.cleaned_text with
  | some s => if s = "" then clean r.text else s
  | none => clean r.text

/-- The `reviews_text` accumulation of `_score_single_chunk`
(scoring.py lines 169-173). -/
def reviewsText (clean : String → String) (reviews : List SReview) : String :=
  String.join (reviews.enum.map
    (fun p => reviewLine (p.1 + 1) p.2.id (resolvedText clean p.2)))

structure ChunkAcc where
  chunks : List (List SReview)
  current : List SReview
  tokens : ℕ

/-- One part of an oversized review (scoring.py lines 98-108): cleaned text
replaced by the part, id suffixed with `_part{i+1}`, and the
`original_id` / `is_split` / `part_number` / `total_parts` tags set. -/
def splitReviewPart (rwc : SReview) (origId : String) (total i : ℕ)
    (chunkStr : String) : SReview :=
  { rwc with
      cleaned_text := some chunkStr,
      id := origId ++ "_part" ++ toString (i + 1),
      original_id := some origId,
      is_split := true,
      part_number := some (i + 1),
      total_parts := some total }

/-- Each split part is appended as its own single-review group
(scoring.py line 108). -/
def splitGroups (rwc : SReview) (origId : String) (parts : List String) :
    List (List SReview) :=
  parts.enum.map (fun p => [splitReviewPart rwc origId parts.length p.1 p.2])

/-- One iteration of the `for review in reviews` loop of
`create_review_chunks` (scoring.py lines 79-118).  The token estimate of a
review uses its position `len(current_chunk) + 1` in the chunk being built
at decision time.  The chunker used for oversized reviews is
`TextChunker(model, max_tokens_per_chunk)`, whose `chunk_overlap_tokens`
defaults to 200. -/
def chunkStep (est : String → ℕ) (clean : String → String) (budget : ℕ)
    (acc : ChunkAcc) (r : SReview) : ChunkAcc :=
  let ct := clean r.text
  let rwc := { r with cleaned_text := some ct }
  let rtok := est (reviewLine (acc.current.length + 1) r.id ct)
  if rtok + basePromptTokens est > budget then
    { chunks := acc.chunks ++ (if acc.current ≠ [] then [acc.current] else [])
        ++ splitGroups rwc r.id (chunk_text est budget 200 ct),
      current := [], tokens := 0 }
  else if acc.current ≠ [] ∧ acc.tokens + rtok + basePromptTokens est > budget then
    { chunks := acc.chunks ++ [acc.current], current := [rwc], tokens := rtok }
  else
    { chunks := acc.chunks, current := acc.current ++ [rwc],
      tokens := acc.tokens + rtok }

/-- `create_review_chunks` (scoring.py lines 53-124), parameterised by the
token estimator `est` and the HTML cleaner `clean` (both depend on external
libraries — tiktoken and BeautifulSoup). -/
def create_review_chunks (est : String → ℕ) (clean : String → String)
    (budget : ℕ) (reviews : List SReview) : List (List SReview) :=
  let acc := reviews.foldl (chunkStep est clean budget) ⟨[], [], 0⟩
  acc.chunks ++ (if acc.current ≠ [] then [acc.current] else [])

/-! ## Batch scoring (`src/review/nodes/scoring.py`, `_score_single_chunk`
and `score_reviews_batch_with_llm`)

The LLM call `chain.invoke({...})` is abstracted as
`backend : criteria_type → joined criteria → reviews_text → Option String`;
`none` models a raised exception (network error, timeout, malformed
transport), which the function's `try/except` converts into all-default
scores. -/

/-- `max(0, min(100, score))` (scoring.py lines 228 and 247). -/
def intClamp (n : ℤ) : ℤ := max 0 (min 100 n)

/-- The `review_index_to_id` mapping (scoring.py lines 207-209):
`str(i) ↦ str(review['id'])` for `i` in 1... -/
def reviewIndexToId (reviews : List SReview) : List (String × String) :=
  reviews.enum.map (fun p => (toString (p.1 + 1), p.2.id))

/-- One iteration of the response-parsing loop (scoring.py lines 213-252):
a stripped line containing `':'` is matched against `리뷰 <index>` (index
mapped through `review_index_to_id`, score = first digit run after the last
colon) or, failing that, against the `<id>: <score>` fallback (id = last
digit run before the first colon).  Parsed scores are clamped to [0, 100];
a line yielding nothing is skipped. -/
def parseLine (idxMap : List (String × String)) (scores : List (String × ℤ))
    (rawLine : String) : List (String × ℤ) :=
  let line := pyStrip rawLine
  if line.contains ':' ∧ line ≠ "" then
    match findReviewIdx line with
    | some idx =>
      match digitRuns ((line.splitOn ":").getLastD "") with
      | [] => scores
      | n :: _ =>
        match lookupDict idxMap idx with
        | some rid => dictInsert rid (intClamp (natOfDigits n : ℤ)) scores
        | none => scores
    | none =>
      match (digitRuns (splitColonOnce line).1).getLast? with
      | none => scores
      | some idnum =>
        match digitRuns (splitColonOnce line).2 with
        | [] => scores
        | n :: _ => dictInsert idnum (intClamp (natOfDigits n : ℤ)) scores
  else scores

/-- The `scores` dict after parsing the whole response. -/
def parsedScores (idxMap : List (String × String)) (lines : List String) :
    List (String × ℤ) :=
  lines.foldl (parseLine idxMap) []

/-- The default-filling loop (scoring.py lines 256-274): a review with no
parsed score receives 50 — except a split review, which first tries to
reuse the score of the first parsed key that `startswith` its
`original_id`. -/
def fillStep (sc : List (String × ℤ)) (r : SReview) : List (String × ℤ) :=
  if containsKey sc r.id then sc
  else if r.is_split then
    match sc.find? (fun kv => kv.1.startsWith (r.original_id.getD r.id)) with
    | some kv => dictInsert r.id kv.2 sc
    | none => dictInsert r.id 50 sc
  else dictInsert r.id 50 sc

def fillDefaults (reviews : List SReview) (scores : List (String × ℤ)) :
    List (String × ℤ) :=
  reviews.foldl fillStep scores

/-- The `final_scores` loop (scoring.py lines 277-284): one entry per chunk
review id, defaulting to 50. -/
def finalizeScores (reviews : List SReview) (scores : List (String × ℤ)) :
    List (String × ℤ) :=
  reviews.foldl (fun fs r =>
    match lookupDict scores r.id with
    | some v => dictInsert r.id v fs
    | none => dictInsert r.id 50 fs) []

/-- A fold inserting one binding per review, the value a function of the id
alone: the common shape of `finalizeScores` (value = parsed-or-50) and the
exception fallback `{review['id']: 50 ...}` (value = 50). -/
def insertFold (vf : String → ℤ) (reviews : List SReview)
    (init : List (String × ℤ)) : List (String × ℤ) :=
  reviews.foldl (fun d r => dictInsert r.id (vf r.id) d) init

/-- `_score_single_chunk` (scoring.py lines 152-291).  A backend exception
(`none`) is caught by the enclosing `try/except` and yields
`{review['id']: 50 for review in reviews}`. -/
def _score_single_chunk (clean : String → String)
    (backend : String → String → String → Option String)
    (reviews : List SReview) (criteria_type : String) (criteria : List String) :
    List (String × ℤ) :=
  match backend criteria_type (String.intercalate ", " criteria)
      (reviewsText clean reviews) with
  | none => reviews.foldl (fun d r => dictInsert r.id 50 d) []
  | some response =>
    finalizeScores reviews
      (fillDefaults reviews
        (parsedScores (reviewIndexToId reviews) ((pyStrip response).splitOn "\n")))

/-- `_score_multiple_chunks_parallel` (scoring.py lines 294-335): the chunk
results are merged with `all_scores.update(chunk_scores)` as the thread-pool
futures complete.  Completion order is modelled as list order; since every
chunk result is keyed exactly by that chunk's review ids, any two completion
orders give dicts with the same bindings whenever chunk ids are disjoint
(which holds when no input id repeats).  A chunk future cannot raise — the
chunk function catches its own exceptions — so the per-chunk default branch
(lines 319-323) is dead. -/
def _score_multiple_chunks_parallel (clean : String → String)
    (backend : String → String → String → Option String)
    (chunks : List (List SReview)) (criteria_type : String)
    (criteria : List String) : List (String × ℤ) :=
  chunks.foldl (fun acc c =>
    dictUpdate acc (_score_single_chunk clean backend c criteria_type criteria)) []

/-- `score_reviews_batch_with_llm` (scoring.py lines 127-149): chunk, then
score the single chunk directly or merge the per-chunk results.  The outer
`try/except` (returning all-50) is unreachable in the model since both
branches are total. -/
def score_reviews_batch_with_llm (est : String → ℕ) (clean : String → String)
    (backend : String → String → String → Option String) (budget : ℕ)
    (reviews : List SReview) (criteria_type : String) (criteria : List String) :
    List (String × ℤ) :=
  match create_review_chunks est clean budget reviews with
  | [c] => _score_single_chunk clean backend c criteria_type criteria
  | chunks => _score_multiple_chunks_parallel clean backend chunks criteria_type criteria

/-! ## Parallel perspective dispatcher (`src/review/nodes/scoring.py`,
`process_single_criteria_sync` and `process_all_perspectives`) -/

/-- One entry of the `criteria_by_type` list. -/
structure CriteriaItem where
  type : String
  criteria : List String
deriving DecidableEq, Repr

/-- `process_single_criteria_sync` (scoring.py lines 344-375): the batch
scores re-shaped into `{review_id: {"score": .., "perspective": ..}}`.  The
`except` branch (all 50) is unreachable since batch scoring is total. -/
def process_single_criteria_sync (est : String → ℕ) (clean : String → String)
    (backend : String → String → String → Option String) (budget : ℕ)
    (ci : CriteriaItem) (filtered : List SReview) :
    List (String × CandidateScore) :=
  (score_reviews_batch_with_llm est clean backend budget filtered ci.type
    ci.criteria).map (fun kv => (kv.1, ⟨kv.2, ci.type⟩))

/-- The scores gathered for one review id across all perspectives
(scoring.py lines 455-463): iterate the `all_results` dict in key order and
collect the per-perspective entries containing this id. -/
def candidateScoresFor
    (all_results : List (String × List (String × CandidateScore)))
    (rid : String) : List CandidateScore :=
  all_results.flatMap (fun ct =>
    match lookupDict ct.2 rid with
    | some sd => [⟨sd.score, sd.perspective⟩]
    | none => [])

/-- The candidate-assembly loop of `process_all_perspectives`
(scoring.py lines 452-469): iterate the FILTERED REVIEWS in input order and
emit a candidate for every review with at least one perspective score. -/
def assembleCandidates
    (all_results : List (String × List (String × CandidateScore)))
    (filtered : List SReview) : List Candidate :=
  filtered.flatMap (fun r =>
    let scores := candidateScoresFor all_results r.id
    if scores = [] then [] else [⟨r.id, scores⟩])

/-- The `all_results` dict accumulated from the completed futures
(scoring.py lines 439-449), in list order (the dispatcher collects in
completion order; the C4 theorem quantifies over arbitrary `all_results`
lists, which covers every completion order). -/
def buildAllResults (est : String → ℕ) (clean : String → String)
    (backend : String → String → String → Option String) (budget : ℕ)
    (criteria_list : List CriteriaItem) (filtered : List SReview) :
    List (String × List (String × CandidateScore)) :=
  criteria_list.foldl (fun acc ci =>
    dictInsert ci.type
      (process_single_criteria_sync est clean backend budget ci filtered) acc) []

/-- `process_all_perspectives` (scoring.py lines 404-472): empty review list
short-circuits to no candidates; otherwise fan out per criteria type and
fan in per review. -/
def process_all_perspectives (est : String → ℕ) (clean : String → String)
    (backend : String → String → String → Option String) (budget : ℕ)
    (criteria_list : List CriteriaItem) (filtered : List SReview) :
    List Candidate :=
  if filtered = [] then []
  else assembleCandidates
    (buildAllResults est clean backend budget criteria_list filtered) filtered

/-! ## Dictionary lemmas -/

lemma lookupDict_dictInsert {ν : Type} (k : String) (v : ν)
    (d : List (String × ν)) (k' : String) :
    lookupDict (dictInsert k v d) k' =
      if k' = k then some v else lookupDict d k' := by
  induction d with
  | nil =>
    by_cases h : k' = k
    · simp [dictInsert, lookupDict, List.find?, h]
    · have h2 : ¬ k = k' := fun he => h he.symm
      simp [dictInsert, lookupDict, List.find?, h, h2]
  | cons kv rest ih =>
    obtain ⟨k0, v0⟩ := kv
    by_cases h0 : k0 = k
    · subst h0
      by_cases h : k' = k0
      · subst h
        simp [dictInsert, lookupDict, List.find?]
      · have h2 : ¬ k0 = k' := fun he => h he.symm
        simp [dictInsert, lookupDict, List.find?, h, h2]
    · simp only [dictInsert, if_neg h0]
      by_cases h : k' = k0
      · subst h
        simp [lookupDict, List.find?, h0]
      · have h2 : ¬ k0 = k' := fun he => h he.symm
        have e1 : lookupDict ((k0, v0) :: dictInsert k v rest) k' =
            lookupDict (dictInsert k v rest) k' := by
          simp [lookupDict, List.find?, h2]
        have e2 : lookupDict ((k0, v0) :: rest) k' = lookupDict rest k' := by
          simp [lookupDict, List.find?, h2]
        rw [e1, ih]
        by_cases hk : k' = k <;> simp [hk, e2]

lemma mem_dictInsert {ν : Type} {kv : String × ν} {k : String} {v : ν}
    {d : List (String × ν)} (h : kv ∈ dictInsert k v d) :
    kv = (k, v) ∨ kv ∈ d := by
  induction d with
  | nil => simpa [dictInsert] using h
  | cons kv0 rest ih =>
    obtain ⟨k0, v0⟩ := kv0
    by_cases h0 : k0 = k
    · simp only [dictInsert, if_pos h0] at h
      rcases List.mem_cons.mp h with h | h
      · exact Or.inl h
      · exact Or.inr (List.mem_cons_of_mem _ h)
    · simp only [dictInsert, if_neg h0] at h
      rcases List.mem_cons.mp h with h | h
      · exact Or.inr (h ▸ List.mem_cons_self _ _)
      · rcases ih h with h | h
        · exact Or.inl h
        · exact Or.inr (List.mem_cons_of_mem _ h)

lemma mem_keys_dictInsert {ν : Type} {a k : String} {v : ν}
    {d : List (String × ν)} :
    a ∈ (dictInsert k v d).map Prod.fst ↔ a = k ∨ a ∈ d.map Prod.fst := by
  induction d with
  | nil => simp [dictInsert]
  | cons kv0 rest ih =>
    obtain ⟨k0, v0⟩ := kv0
    by_cases h0 : k0 = k
    · subst h0
      simp [dictInsert]
    · simp only [dictInsert, if_neg h0, List.map_cons, List.mem_cons]
      rw [ih]
      tauto

lemma nodup_keys_dictInsert {ν : Type} {k : String} {v : ν}
    {d : List (String × ν)} (h : (d.map Prod.fst).Nodup) :
    ((dictInsert k v d).map Prod.fst).Nodup := by
  induction d with
  | nil => simp [dictInsert]
  | cons kv0 rest ih =>
    obtain ⟨k0, v0⟩ := kv0
    simp only [List.map_cons, List.nodup_cons] at h
    by_cases h0 : k0 = k
    · subst h0
      have e : dictInsert k0 v ((k0, v0) :: rest) = (k0, v) :: rest := by
        simp [dictInsert]
      rw [e, List.map_cons, List.nodup_cons]
      exact ⟨h.1, h.2⟩
    · simp only [dictInsert, if_neg h0, List.map_cons, List.nodup_cons]
      refine ⟨?_, ih h.2⟩
      intro hmem
      rcases mem_keys_dictInsert.mp hmem with he | he
      · exact h0 he
      · exact h.1 he

lemma containsKey_iff_mem_keys {ν : Type} (d : List (String × ν)) (k : String) :
    containsKey d k = true ↔ k ∈ d.map Prod.fst := by
  induction d with
  | nil => simp [containsKey, lookupDict, List.find?]
  | cons kv rest ih =>
    obtain ⟨k0, v0⟩ := kv
    by_cases h : k0 = k
    · subst h
      simp [containsKey, lookupDict, List.find?]
    · have h2 : ¬ k = k0 := fun he => h he.symm
      simp only [containsKey, lookupDict, List.find?, List.map_cons,
        List.mem_cons] at ih ⊢
      rw [show (decide (k0 = k)) = false by simpa using h]
      simp [h2, ih]

/-! ## C4: dispatcher ordering -/

lemma assembleCandidates_map_id
    (ar : List (String × List (String × CandidateScore)))
    (fr : List SReview) :
    (assembleCandidates ar fr).map (fun c => c.review_id) =
      (fr.filter (fun r => ! (candidateScoresFor ar r.id).isEmpty)).map
        (fun r => r.id) := by
  induction fr with
  | nil => rfl
  | cons r rest ih =>
    by_cases h : candidateScoresFor ar r.id = []
    · simp [assembleCandidates, List.filter_cons, h, List.isEmpty_iff] at ih ⊢
      exact ih
    · simp [assembleCandidates, List.filter_cons, h, List.isEmpty_iff] at ih ⊢
      exact ih

lemma candidateScoresFor_eq_nil_iff
    (ar : List (String × List (String × CandidateScore))) (rid : String) :
    candidateScoresFor ar rid = [] ↔
      ∀ ct ∈ ar, lookupDict ct.2 rid = none := by
  induction ar with
  | nil => simp [candidateScoresFor]
  | cons ct rest ih =>
    cases h : lookupDict ct.2 rid with
    | none => simp [candidateScoresFor, h, List.flatMap_cons] at ih ⊢; exact ih
    | some sd => simp [candidateScoresFor, h, List.flatMap_cons]

lemma candidateScoresFor_perm_nil
    {ar ar' : List (String × List (String × CandidateScore))}
    (hperm : ar.Perm ar') (rid : String) :
    (candidateScoresFor ar rid = []) ↔ (candidateScoresFor ar' rid = []) := by
  rw [candidateScoresFor_eq_nil_iff, candidateScoresFor_eq_nil_iff]
  exact ⟨fun h ct hct => h ct (hperm.mem_iff.mpr hct),
         fun h ct hct => h ct (hperm.mem_iff.mp hct)⟩

/-- C4, confirmed: the candidate list emitted by the parallel perspective
dispatcher is ordered by input review order — its review-id sequence is
exactly the input id sequence restricted to reviews with at least one
perspective score — and that sequence is invariant under any permutation of
the collected `all_results` (hence under any job-completion order); the same
characterisation holds for `process_all_perspectives` itself. -/
theorem c4_dispatcher_input_ordering
    (all_results all_results' : List (String × List (String × CandidateScore)))
    (filtered : List SReview) (hperm : all_results.Perm all_results') :
    ((assembleCandidates all_results filtered).map (fun c => c.review_id) =
      (filtered.filter
        (fun r => ! (candidateScoresFor all_results r.id).isEmpty)).map
        (fun r => r.id))
    ∧ ((assembleCandidates all_results filtered).map (fun c => c.review_id) =
      (assembleCandidates all_results' filtered).map (fun c => c.review_id))
    ∧ (∀ (est : String → ℕ) (clean : String → String)
        (backend : String → String → String → Option String) (budget : ℕ)
        (criteria_list : List CriteriaItem),
        (process_all_perspectives est clean backend budget criteria_list
          filtered).map (fun c => c.review_id) =
        (filtered.filter (fun r => ! (candidateScoresFor
            (buildAllResults est clean backend budget criteria_list filtered)
            r.id).isEmpty)).map (fun r => r.id)) := by
  refine ⟨assembleCandidates_map_id _ _, ?_, ?_⟩
  · rw [assembleCandidates_map_id, assembleCandidates_map_id]
    congr 1
    apply List.filter_congr
    intro r _
    have hiff := candidateScoresFor_perm_nil hperm r.id
    have efalse : ∀ (l : List CandidateScore), l ≠ [] → l.isEmpty = false := by
      intro l hl
      cases l with
      | nil => exact absurd rfl hl
      | cons a t => rfl
    by_cases h : candidateScoresFor all_results r.id = []
    · simp [h, hiff.mp h]
    · have h' : candidateScoresFor all_results' r.id ≠ [] :=
        fun he => h (hiff.mpr he)
      rw [efalse _ h, efalse _ h']
  · intro est clean backend budget criteria_list
    unfold process_all_perspectives
    by_cases hf : filtered = []
    · simp [hf]
    · rw [if_neg hf]
      exact assembleCandidates_map_id _ _

/-- Witness for C4: two perspective-result dicts collected in either
completion order give the same candidate id sequence, following the input
review order. -/
theorem c4_dispatcher_input_ordering_witness :
    (assembleCandidates
      [("품질", [("1", ⟨80, "품질"⟩)]), ("유용성", [("2", ⟨60, "유용성"⟩)])]
      [{ id := "1" }, { id := "2" }, { id := "3" }]).map
      (fun c => c.review_id) =
    (assembleCandidates
      [("유용성", [("2", ⟨60, "유용성"⟩)]), ("품질", [("1", ⟨80, "품질"⟩)])]
      [{ id := "1" }, { id := "2" }, { id := "3" }]).map
      (fun c => c.review_id) :=
  (c4_dispatcher_input_ordering _ _ _
    (List.Perm.swap ("유용성", [("2", ⟨60, "유용성"⟩)])
      ("품질", [("1", ⟨80, "품질"⟩)]) [])).2.1

/-! ## C2: scorer coverage lemmas -/

lemma lookupDict_insertFold (vf : String → ℤ) (reviews : List SReview)
    (init : List (String × ℤ)) (rid : String) :
    lookupDict (insertFold vf reviews init) rid =
      if rid ∈ reviews.map (fun r => r.id) then some (vf rid)
      else lookupDict init rid := by
  induction reviews generalizing init with
  | nil => simp [insertFold]
  | cons r rest ih =>
    simp only [insertFold, List.foldl_cons] at ih ⊢
    rw [ih]
    by_cases hmem : rid ∈ rest.map (fun r => r.id)
    · simp [hmem]
    · rw [if_neg hmem, lookupDict_dictInsert]
      by_cases hr : rid = r.id
      · simp [hr]
      · have hnc : ¬ rid ∈ (r :: rest).map (fun r => r.id) := by
          simp only [List.map_cons, List.mem_cons]
          rintro (h | h)
          · exact hr h
          · exact hmem h
        rw [if_neg hr, if_neg hnc]

lemma mem_keys_insertFold (vf : String → ℤ) (reviews : List SReview)
    (init : List (String × ℤ)) (a : String) :
    a ∈ (insertFold vf reviews init).map Prod.fst ↔
      a ∈ reviews.map (fun r => r.id) ∨ a ∈ init.map Prod.fst := by
  induction reviews generalizing init with
  | nil => simp [insertFold]
  | cons r rest ih =>
    simp only [insertFold, List.foldl_cons] at ih ⊢
    rw [ih, mem_keys_dictInsert]
    simp only [List.map_cons, List.mem_cons]
    tauto

lemma nodup_keys_insertFold (vf : String → ℤ) (reviews : List SReview)
    (init : List (String × ℤ)) (h : (init.map Prod.fst).Nodup) :
    ((insertFold vf reviews init).map Prod.fst).Nodup := by
  induction reviews generalizing init with
  | nil => exact h
  | cons r rest ih =>
    simp only [insertFold, List.foldl_cons] at ih ⊢
    exact ih _ (nodup_keys_dictInsert h)

lemma mem_insertFold {vf : String → ℤ} {reviews : List SReview}
    {init : List (String × ℤ)} {kv : String × ℤ}
    (h : kv ∈ insertFold vf reviews init) :
    kv.2 = vf kv.1 ∨ kv ∈ init := by
  induction reviews generalizing init with
  | nil => exact Or.inr h
  | cons r rest ih =>
    simp only [insertFold, List.foldl_cons] at h
    rcases ih h with h | h
    · exact Or.inl h
    · rcases mem_dictInsert h with h | h
      · rw [h]
        exact Or.inl rfl
      · exact Or.inr h

lemma foldl_congr_fn {α β : Type} {f g : α → β → α} (h : ∀ a b, f a b = g a b) :
    ∀ (l : List β) (init : α), List.foldl f init l = List.foldl g init l := by
  intro l
  induction l with
  | nil => intro init; rfl
  | cons b rest ih => intro init; rw [List.foldl_cons, List.foldl_cons, h, ih]

lemma finalizeScores_eq_insertFold (reviews : List SReview)
    (scores : List (String × ℤ)) :
    finalizeScores reviews scores =
      insertFold (fun rid => (lookupDict scores rid).getD 50) reviews [] := by
  unfold finalizeScores insertFold
  apply foldl_congr_fn
  intro fs r
  cases h : lookupDict scores r.id <;> simp [h]

lemma defaultDict_eq_insertFold (reviews : List SReview) :
    reviews.foldl (fun d r => dictInsert r.id 50 d) [] =
      insertFold (fun _ => 50) reviews [] := rfl

/-! dictUpdate lemmas -/

lemma mem_keys_dictUpdate {ν : Type} (d e : List (String × ν)) (a : String) :
    a ∈ (dictUpdate d e).map Prod.fst ↔
      a ∈ d.map Prod.fst ∨ a ∈ e.map Prod.fst := by
  induction e generalizing d with
  | nil => simp [dictUpdate]
  | cons kv rest ih =>
    simp only [dictUpdate, List.foldl_cons] at ih ⊢
    rw [ih, mem_keys_dictInsert]
    simp only [List.map_cons, List.mem_cons]
    tauto

lemma nodup_keys_dictUpdate {ν : Type} (d e : List (String × ν))
    (h : (d.map Prod.fst).Nodup) :
    ((dictUpdate d e).map Prod.fst).Nodup := by
  induction e generalizing d with
  | nil => exact h
  | cons kv rest ih =>
    simp only [dictUpdate, List.foldl_cons] at ih ⊢
    exact ih _ (nodup_keys_dictInsert h)

lemma mem_dictUpdate_prop {ν : Type} {P : String × ν → Prop}
    {d e : List (String × ν)} (hd : ∀ kv ∈ d, P kv) (he : ∀ kv ∈ e, P kv) :
    ∀ kv ∈ dictUpdate d e, P kv := by
  induction e generalizing d with
  | nil => exact hd
  | cons kv0 rest ih =>
    simp only [dictUpdate, List.foldl_cons] at ih ⊢
    refine ih ?_ (fun kv hkv => he kv (List.mem_cons_of_mem _ hkv))
    intro kv hkv
    rcases mem_dictInsert hkv with h | h
    · rw [h]
      exact he kv0 (List.mem_cons_self _ _)
    · exact hd kv h

/-! Parse / fill / finalize value lemmas -/

lemma intClamp_range (n : ℤ) : 0 ≤ intClamp n ∧ intClamp n ≤ 100 :=
  ⟨le_max_left 0 _, max_le (by norm_num) (min_le_left 100 n)⟩

lemma mem_parseLine {idxMap : List (String × String)}
    {sc : List (String × ℤ)} {line : String} {kv : String × ℤ}
    (h : kv ∈ parseLine idxMap sc line) :
    kv ∈ sc ∨ (0 ≤ kv.2 ∧ kv.2 ≤ 100) := by
  simp only [parseLine] at h
  split at h
  · split at h
    · split at h
      · exact Or.inl h
      · split at h
        · rcases mem_dictInsert h with h | h
          · rw [h]
            exact Or.inr (intClamp_range _)
          · exact Or.inl h
        · exact Or.inl h
    · split at h
      · exact Or.inl h
      · split at h
        · exact Or.inl h
        · rcases mem_dictInsert h with h | h
          · rw [h]
            exact Or.inr (intClamp_range _)
          · exact Or.inl h
  · exact Or.inl h

lemma mem_parsedScores {idxMap : List (String × String)}
    {lines : List String} {kv : String × ℤ}
    (h : kv ∈ parsedScores idxMap lines) : 0 ≤ kv.2 ∧ kv.2 ≤ 100 := by
  suffices hgen : ∀ (ls : List String) (sc : List (String × ℤ)),
      (∀ kv' ∈ sc, 0 ≤ kv'.2 ∧ kv'.2 ≤ 100) →
      ∀ kv' ∈ ls.foldl (parseLine idxMap) sc, 0 ≤ kv'.2 ∧ kv'.2 ≤ 100 by
    exact hgen lines []
      (fun kv' h' => absurd h' (List.not_mem_nil kv')) kv h
  intro ls
  induction ls with
  | nil => intro sc hsc kv' h'; exact hsc kv' h'
  | cons line rest ih =>
    intro sc hsc kv' h'
    refine ih _ ?_ kv' h'
    intro kv2 h2
    rcases mem_parseLine h2 with h2 | h2
    · exact hsc kv2 h2
    · exact h2

lemma lookupDict_mem {ν : Type} {d : List (String × ν)} {k : String} {v : ν}
    (h : lookupDict d k = some v) : ∃ kv ∈ d, kv.1 = k ∧ kv.2 = v := by
  unfold lookupDict at h
  cases hf : d.find? (fun kv => kv.1 = k) with
  | none => rw [hf] at h; simp at h
  | some kv =>
    rw [hf] at h
    simp only [Option.map] at h
    refine ⟨kv, List.mem_of_find?_eq_some hf, ?_, by simpa using h⟩
    have := List.find?_some hf
    simpa using this

lemma mem_fillDefaults {reviews : List SReview} {scores : List (String × ℤ)}
    {kv : String × ℤ} (h : kv ∈ fillDefaults reviews scores) :
    kv.2 = 50 ∨ ∃ kv' ∈ scores, kv'.2 = kv.2 := by
  suffices hgen : ∀ (rs : List SReview) (sc : List (String × ℤ)),
      (∀ kv' ∈ sc, kv'.2 = 50 ∨ ∃ kv2 ∈ scores, kv2.2 = kv'.2) →
      ∀ kv' ∈ rs.foldl fillStep sc, kv'.2 = 50 ∨ ∃ kv2 ∈ scores, kv2.2 = kv'.2 by
    exact hgen reviews scores (fun kv' h' => Or.inr ⟨kv', h', rfl⟩) kv h
  intro rs
  induction rs with
  | nil => intro sc hsc kv' h'; exact hsc kv' h'
  | cons r rest ih =>
    intro sc hsc kv' h'
    refine ih _ ?_ kv' h'
    intro kv2 h2
    unfold fillStep at h2
    split at h2
    · exact hsc kv2 h2
    · split at h2
      · split at h2
        next x heq =>
          rcases mem_dictInsert h2 with h2 | h2
          · rw [h2]
            simpa using hsc _ (List.mem_of_find?_eq_some heq)
          · exact hsc kv2 h2
        next heq =>
          rcases mem_dictInsert h2 with h2 | h2
          · rw [h2]
            exact Or.inl rfl
          · exact hsc kv2 h2
      · rcases mem_dictInsert h2 with h2 | h2
        · rw [h2]
          exact Or.inl rfl
        · exact hsc kv2 h2

/-! Chunk-level and batch-level coverage lemmas -/

lemma single_chunk_keys (clean : String → String)
    (backend : String → String → String → Option String) (c : List SReview)
    (ct : String) (cr : List String) (rid : String) :
    rid ∈ (_score_single_chunk clean backend c ct cr).map Prod.fst ↔
      rid ∈ c.map (fun r => r.id) := by
  unfold _score_single_chunk
  cases backend ct (String.intercalate ", " cr) (reviewsText clean c) with
  | none =>
    rw [defaultDict_eq_insertFold, mem_keys_insertFold]
    simp
  | some response =>
    dsimp only
    rw [finalizeScores_eq_insertFold, mem_keys_insertFold]
    simp

lemma single_chunk_nodup (clean : String → String)
    (backend : String → String → String → Option String) (c : List SReview)
    (ct : String) (cr : List String) :
    ((_score_single_chunk clean backend c ct cr).map Prod.fst).Nodup := by
  unfold _score_single_chunk
  cases backend ct (String.intercalate ", " cr) (reviewsText clean c) with
  | none =>
    rw [defaultDict_eq_insertFold]
    exact nodup_keys_insertFold _ _ _ (by simp)
  | some response =>
    dsimp only
    rw [finalizeScores_eq_insertFold]
    exact nodup_keys_insertFold _ _ _ (by simp)

lemma single_chunk_range (clean : String → String)
    (backend : String → String → String → Option String) (c : List SReview)
    (ct : String) (cr : List String) :
    ∀ kv ∈ _score_single_chunk clean backend c ct cr,
      0 ≤ kv.2 ∧ kv.2 ≤ 100 := by
  intro kv hkv
  unfold _score_single_chunk at hkv
  cases hb : backend ct (String.intercalate ", " cr) (reviewsText clean c) with
  | none =>
    rw [hb] at hkv
    dsimp only at hkv
    rw [defaultDict_eq_insertFold] at hkv
    rcases mem_insertFold hkv with h | h
    · rw [h]; norm_num
    · exact absurd h (List.not_mem_nil kv)
  | some response =>
    rw [hb] at hkv
    dsimp only at hkv
    rw [finalizeScores_eq_insertFold] at hkv
    rcases mem_insertFold hkv with h | h
    · rw [h]
      cases hl : lookupDict (fillDefaults c (parsedScores (reviewIndexToId c)
          ((pyStrip response).splitOn "\n"))) kv.1 with
      | none => simp [hl]
      | some v =>
        simp only [hl, Option.getD_some]
        obtain ⟨kv', hmem, _, hval⟩ := lookupDict_mem hl
        rcases mem_fillDefaults hmem with h50 | ⟨kv2, hkv2, hvv⟩
        · rw [← hval, h50]; norm_num
        · rw [← hval, ← hvv]
          exact mem_parsedScores hkv2
    · exact absurd h (List.not_mem_nil kv)

lemma single_chunk_all50 (clean : String → String)
    (backend : String → String → String → Option String) (c : List SReview)
    (ct : String) (cr : List String)
    (hb : ∀ a b d, backend a b d = none) :
    ∀ kv ∈ _score_single_chunk clean backend c ct cr, kv.2 = 50 := by
  intro kv hkv
  unfold _score_single_chunk at hkv
  rw [hb] at hkv
  dsimp only at hkv
  rw [defaultDict_eq_insertFold] at hkv
  rcases mem_insertFold hkv with h | h
  · exact h
  · exact absurd h (List.not_mem_nil kv)

lemma multi_chunk_keys (clean : String → String)
    (backend : String → String → String → Option String)
    (chunks : List (List SReview)) (ct : String) (cr : List String)
    (rid : String) :
    rid ∈ (_score_multiple_chunks_parallel clean backend chunks ct cr).map
        Prod.fst ↔
      ∃ c ∈ chunks, rid ∈ c.map (fun r => r.id) := by
  suffices hgen : ∀ (cs : List (List SReview)) (acc : List (String × ℤ)),
      rid ∈ (cs.foldl (fun acc c =>
          dictUpdate acc (_score_single_chunk clean backend c ct cr)) acc).map
        Prod.fst ↔
      rid ∈ acc.map Prod.fst ∨ ∃ c ∈ cs, rid ∈ c.map (fun r => r.id) by
    unfold _score_multiple_chunks_parallel
    rw [hgen chunks []]
    simp
  intro cs
  induction cs with
  | nil => intro acc; simp
  | cons c rest ih =>
    intro acc
    simp only [List.foldl_cons]
    rw [ih, mem_keys_dictUpdate, single_chunk_keys]
    simp only [List.mem_cons]
    constructor
    · rintro ((h | h) | ⟨c2, hc2, h⟩)
      · exact Or.inl h
      · exact Or.inr ⟨c, Or.inl rfl, h⟩
      · exact Or.inr ⟨c2, Or.inr hc2, h⟩
    · rintro (h | ⟨c2, (hc2 | hc2), h⟩)
      · exact Or.inl (Or.inl h)
      · exact Or.inl (Or.inr (hc2 ▸ h))
      · exact Or.inr ⟨c2, hc2, h⟩

lemma multi_chunk_nodup (clean : String → String)
    (backend : String → String → String → Option String)
    (chunks : List (List SReview)) (ct : String) (cr : List String) :
    ((_score_multiple_chunks_parallel clean backend chunks ct cr).map
      Prod.fst).Nodup := by
  suffices hgen : ∀ (cs : List (List SReview)) (acc : List (String × ℤ)),
      (acc.map Prod.fst).Nodup →
      ((cs.foldl (fun acc c =>
          dictUpdate acc (_score_single_chunk clean backend c ct cr)) acc).map
        Prod.fst).Nodup by
    exact hgen chunks [] (by simp)
  intro cs
  induction cs with
  | nil => intro acc h; exact h
  | cons c rest ih =>
    intro acc h
    simp only [List.foldl_cons]
    exact ih _ (nodup_keys_dictUpdate _ _ h)

lemma multi_chunk_prop (clean : String → String)
    (backend : String → String → String → Option String)
    (chunks : List (List SReview)) (ct : String) (cr : List String)
    (P : String × ℤ → Prop)
    (hP : ∀ c ∈ chunks, ∀ kv ∈ _score_single_chunk clean backend c ct cr, P kv) :
    ∀ kv ∈ _score_multiple_chunks_parallel clean backend chunks ct cr, P kv := by
  suffices hgen : ∀ (cs : List (List SReview)) (acc : List (String × ℤ)),
      (∀ c ∈ cs, ∀ kv ∈ _score_single_chunk clean backend c ct cr, P kv) →
      (∀ kv ∈ acc, P kv) →
      ∀ kv ∈ cs.foldl (fun acc c =>
          dictUpdate acc (_score_single_chunk clean backend c ct cr)) acc,
        P kv by
    exact hgen chunks [] hP (by simp)
  intro cs
  induction cs with
  | nil => intro acc _ hacc; exact hacc
  | cons c rest ih =>
    intro acc hcs hacc
    simp only [List.foldl_cons]
    refine ih _ (fun c2 hc2 => hcs c2 (List.mem_cons_of_mem _ hc2)) ?_
    exact mem_dictUpdate_prop hacc (hcs c (List.mem_cons_self _ _))

lemma batch_keys (est : String → ℕ) (clean : String → String)
    (backend : String → String → String → Option String) (budget : ℕ)
    (reviews : List SReview) (ct : String) (cr : List String) (rid : String) :
    rid ∈ (score_reviews_batch_with_llm est clean backend budget reviews ct
        cr).map Prod.fst ↔
      rid ∈ (create_review_chunks est clean budget reviews).flatten.map
        (fun r => r.id) := by
  unfold score_reviews_batch_with_llm
  rcases hch : create_review_chunks est clean budget reviews with
    _ | ⟨c, _ | ⟨c2, rest⟩⟩
  · simp [_score_multiple_chunks_parallel]
  · rw [single_chunk_keys]
    simp
  · rw [multi_chunk_keys]
    simp only [List.mem_flatten, List.mem_map]
    tauto

lemma batch_nodup (est : String → ℕ) (clean : String → String)
    (backend : String → String → String → Option String) (budget : ℕ)
    (reviews : List SReview) (ct : String) (cr : List String) :
    ((score_reviews_batch_with_llm est clean backend budget reviews ct
      cr).map Prod.fst).Nodup := by
  unfold score_reviews_batch_with_llm
  rcases create_review_chunks est clean budget reviews with
    _ | ⟨c, _ | ⟨c2, rest⟩⟩
  · simp [_score_multiple_chunks_parallel]
  · exact single_chunk_nodup _ _ _ _ _
  · exact multi_chunk_nodup _ _ _ _ _

lemma batch_range (est : String → ℕ) (clean : String → String)
    (backend : String → String → String → Option String) (budget : ℕ)
    (reviews : List SReview) (ct : String) (cr : List String) :
    ∀ kv ∈ score_reviews_batch_with_llm est clean backend budget reviews ct cr,
      0 ≤ kv.2 ∧ kv.2 ≤ 100 := by
  unfold score_reviews_batch_with_llm
  rcases create_review_chunks est clean budget reviews with
    _ | ⟨c, _ | ⟨c2, rest⟩⟩
  · simp [_score_multiple_chunks_parallel]
  · exact single_chunk_range _ _ _ _ _
  · exact multi_chunk_prop _ _ _ _ _ _
      (fun c0 _ => single_chunk_range _ _ _ _ _)

lemma batch_all50 (est : String → ℕ) (clean : String → String)
    (backend : String → String → String → Option String) (budget : ℕ)
    (reviews : List SReview) (ct : String) (cr : List String)
    (hb : ∀ a b d, backend a b d = none) :
    ∀ kv ∈ score_reviews_batch_with_llm est clean backend budget reviews ct cr,
      kv.2 = 50 := by
  unfold score_reviews_batch_with_llm
  rcases create_review_chunks est clean budget reviews with
    _ | ⟨c, _ | ⟨c2, rest⟩⟩
  · simp [_score_multiple_chunks_parallel]
  · exact single_chunk_all50 _ _ _ _ _ hb
  · exact multi_chunk_prop _ _ _ _ _ _
      (fun c0 _ => single_chunk_all50 _ _ _ _ _ hb)

/-! Default-on-unparsed lemmas -/

lemma fillStep_preserve (sc : List (String × ℤ)) (r : SReview) (k : String)
    (hne : r.id ≠ k) :
    lookupDict (fillStep sc r) k = lookupDict sc k := by
  unfold fillStep
  split
  · rfl
  · split
    · split
      · rw [lookupDict_dictInsert, if_neg (fun he => hne he.symm)]
      · rw [lookupDict_dictInsert, if_neg (fun he => hne he.symm)]
    · rw [lookupDict_dictInsert, if_neg (fun he => hne he.symm)]

lemma fillFold_preserve (rs : List SReview) (k : String) :
    ∀ sc, (∀ r ∈ rs, r.id ≠ k) →
      lookupDict (rs.foldl fillStep sc) k = lookupDict sc k := by
  induction rs with
  | nil => intro sc _; rfl
  | cons r rest ih =>
    intro sc h
    rw [List.foldl_cons,
      ih _ (fun r' hr' => h r' (List.mem_cons_of_mem _ hr')),
      fillStep_preserve _ _ _ (h r (List.mem_cons_self _ _))]

lemma fill_unparsed_default (rs : List SReview) :
    ∀ (sc : List (String × ℤ)) (r : SReview), r ∈ rs → r.is_split = false →
      rs.filter (fun r' => r'.id == r.id) = [r] →
      containsKey sc r.id = false →
      lookupDict (rs.foldl fillStep sc) r.id = some 50 := by
  induction rs with
  | nil => intro sc r hmem; exact absurd hmem (List.not_mem_nil r)
  | cons r0 rest ih =>
    intro sc r hmem hsplit hfil hkey
    rw [List.foldl_cons]
    by_cases hp : (r0.id == r.id) = true
    · rw [List.filter_cons, if_pos hp] at hfil
      have h0 : r0 = r := (List.cons_eq_cons.mp hfil).1
      have hz : rest.filter (fun r' => r'.id == r.id) = [] :=
        (List.cons_eq_cons.mp hfil).2
      subst h0
      have hstep : fillStep sc r0 = dictInsert r0.id 50 sc := by
        unfold fillStep
        rw [hkey]
        simp [hsplit]
      rw [hstep]
      have hrest : ∀ r' ∈ rest, r'.id ≠ r0.id := by
        intro r' hr' he
        have hin : r' ∈ rest.filter (fun r' => r'.id == r0.id) := by
          rw [List.mem_filter]
          exact ⟨hr', by simpa using he⟩
        rw [hz] at hin
        exact absurd hin (List.not_mem_nil r')
      rw [fillFold_preserve _ _ _ hrest, lookupDict_dictInsert, if_pos rfl]
    · rw [List.filter_cons, if_neg hp] at hfil
      have hne : r0.id ≠ r.id := by simpa using hp
      have hmem' : r ∈ rest := by
        rcases List.mem_cons.mp hmem with h | h
        · exact absurd (by simp [h]) hp
        · exact h
      have hkey' : containsKey (fillStep sc r0) r.id = false := by
        unfold containsKey
        rw [fillStep_preserve _ _ _ hne]
        exact hkey
      exact ih _ r hmem' hsplit hfil hkey'

lemma single_chunk_unparsed_default (clean : String → String)
    (backend : String → String → String → Option String) (c : List SReview)
    (ct : String) (cr : List String) (r : SReview) (response : String)
    (hmem : r ∈ c) (hsplit : r.is_split = false)
    (hcount : c.filter (fun r' => r'.id == r.id) = [r])
    (hb : backend ct (String.intercalate ", " cr) (reviewsText clean c) =
      some response)
    (hnp : containsKey (parsedScores (reviewIndexToId c)
      ((pyStrip response).splitOn "\n")) r.id = false) :
    lookupDict (_score_single_chunk clean backend c ct cr) r.id = some 50 := by
  unfold _score_single_chunk
  rw [hb]
  dsimp only
  rw [finalizeScores_eq_insertFold, lookupDict_insertFold,
    if_pos (List.mem_map.mpr ⟨r, hmem, rfl⟩)]
  have hfill := fill_unparsed_default c _ r hmem hsplit hcount hnp
  unfold fillDefaults
  rw [hfill]
  rfl

/-- C2, amended.  Batch scoring is total (no exception escapes) and covers
exactly the ids of the reviews AS CHUNKED, for every review list, budget,
estimator, cleaner and backend: the result's keys are duplicate-free and a
key appears iff it is the id of a review in the flattened chunk list; every
score lies in [0, 100]; a total backend failure degrades every review to
the neutral default 50; the result is empty exactly when the chunked review
list is empty; and within a chunk, a non-split review whose id occurs once
and gains no parseable score from the backend response is assigned exactly
50.  The correction to the claim: the keys are the as-chunked ids, not the
input ids — a review whose estimate exceeds the budget is split and its
scores are then keyed by the part ids (`"id_partN"`), so the input id is
absent — see the counterexample. -/
theorem c2_scorer_total_coverage (est : String → ℕ) (clean : String → String)
    (backend : String → String → String → Option String) (budget : ℕ)
    (reviews : List SReview) (criteria_type : String)
    (criteria : List String) :
    ((score_reviews_batch_with_llm est clean backend budget reviews
        criteria_type criteria).map Prod.fst).Nodup
    ∧ (∀ rid, rid ∈ (score_reviews_batch_with_llm est clean backend budget
          reviews criteria_type criteria).map Prod.fst ↔
        rid ∈ (create_review_chunks est clean budget reviews).flatten.map
          (fun r => r.id))
    ∧ (∀ kv ∈ score_reviews_batch_with_llm est clean backend budget reviews
        criteria_type criteria, 0 ≤ kv.2 ∧ kv.2 ≤ 100)
    ∧ ((∀ a b d, backend a b d = none) →
        ∀ kv ∈ score_reviews_batch_with_llm est clean backend budget reviews
          criteria_type criteria, kv.2 = 50)
    ∧ (score_reviews_batch_with_llm est clean backend budget reviews
          criteria_type criteria = [] ↔
        (create_review_chunks est clean budget reviews).flatten = [])
    ∧ (∀ (c : List SReview) (r : SReview) (response : String),
        r ∈ c → r.is_split = false →
        c.filter (fun r' => r'.id == r.id) = [r] →
        backend criteria_type (String.intercalate ", " criteria)
          (reviewsText clean c) = some response →
        containsKey (parsedScores (reviewIndexToId c)
          ((pyStrip response).splitOn "\n")) r.id = false →
        lookupDict (_score_single_chunk clean backend c criteria_type criteria)
          r.id = some 50) := by
  refine ⟨batch_nodup est clean backend budget reviews criteria_type criteria,
    fun rid => batch_keys est clean backend budget reviews criteria_type
      criteria rid,
    batch_range est clean backend budget reviews criteria_type criteria,
    fun hb => batch_all50 est clean backend budget reviews criteria_type
      criteria hb, ?_,
    fun c r response hm hs hc hb hnp =>
      single_chunk_unparsed_default clean backend c criteria_type criteria r
        response hm hs hc hb hnp⟩
  constructor
  · intro hempty
    refine List.eq_nil_iff_forall_not_mem.mpr (fun r hr => ?_)
    have hin : r.id ∈ (score_reviews_batch_with_llm est clean backend budget
        reviews criteria_type criteria).map Prod.fst :=
      (batch_keys est clean backend budget reviews criteria_type criteria
        r.id).mpr (List.mem_map.mpr ⟨r, hr, rfl⟩)
    rw [hempty] at hin
    exact absurd hin (List.not_mem_nil _)
  · intro hflat
    have hmap : (score_reviews_batch_with_llm est clean backend budget reviews
        criteria_type criteria).map Prod.fst = [] := by
      refine List.eq_nil_iff_forall_not_mem.mpr (fun rid hin => ?_)
      have hch := (batch_keys est clean backend budget reviews criteria_type
        criteria rid).mp hin
      rw [hflat] at hch
      exact absurd hch (by simp)
    exact List.map_eq_nil_iff.mp hmap

set_option maxRecDepth 4000 in
/-- Witness for C2 on a concrete run: two small reviews, the 8000-token
default budget, the character-count fallback estimator, an identity cleaner
(the texts contain no HTML) and a backend that always fails — the key
equivalence of the theorem instantiated at input id "1". -/
theorem c2_scorer_total_coverage_witness :
    "1" ∈ (score_reviews_batch_with_llm fallbackEstimate (fun s => s)
        (fun _ _ _ => none) 8000
        [{ id := "1", text := "good" }, { id := "2", text := "bad" }]
        "품질" ["성능", "내구성"]).map Prod.fst ↔
      "1" ∈ (create_review_chunks fallbackEstimate (fun s => s) 8000
        [{ id := "1", text := "good" },
         { id := "2", text := "bad" }]).flatten.map (fun r => r.id) :=
  (c2_scorer_total_coverage fallbackEstimate (fun s => s) (fun _ _ _ => none)
    8000 [{ id := "1", text := "good" }, { id := "2", text := "bad" }]
    "품질" ["성능", "내구성"]).2.1 "1"

set_option maxRecDepth 4000 in
/-- C2, counterexample to the claim as stated.  With the fallback estimator
and a budget of `basePromptTokens + 5` (= 83) tokens, the single review
`id "1"` is oversized (its rendered line estimates to 9 tokens, 9 + 78 > 83),
so the chunker splits it; its bare text fits the budget, producing exactly
one part `"1_part1"`.  Batch scoring then returns its (default) score under
the part id only: the input review id "1" has NO score in the result —
"exactly one score per input review id" fails. -/
theorem c2_split_review_loses_input_id :
    score_reviews_batch_with_llm fallbackEstimate (fun s => s)
        (fun _ _ _ => none) (basePromptTokens fallbackEstimate + 5)
        [{ id := "1", text := "hello world." }] "품질" ["성능"] =
      [("1_part1", 50)]
    ∧ lookupDict (score_reviews_batch_with_llm fallbackEstimate (fun s => s)
        (fun _ _ _ => none) (basePromptTokens fallbackEstimate + 5)
        [{ id := "1", text := "hello world." }] "품질" ["성능"]) "1" = none :=
  ⟨by decide, by decide⟩

/-! ## C7: chunker budget bound -/

/-- The estimated token cost of a group: the sum of the per-review line
estimates, each review rendered at its actual 1-based position in the group
(as `_score_single_chunk` renders the prompt). -/
def groupCostFrom (est : String → ℕ) : ℕ → List SReview → ℕ
  | _, [] => 0
  | i, r :: rest =>
    est (reviewLine (i + 1) r.id (r.cleaned_text.getD "")) +
      groupCostFrom est (i + 1) rest

def groupCost (est : String → ℕ) (c : List SReview) : ℕ :=
  groupCostFrom est 0 c

/-- A group honours the budget: its token cost plus the fixed
prompt-template overhead fits. -/
def GroupOK (est : String → ℕ) (budget : ℕ) (c : List SReview) : Prop :=
  groupCost est c + basePromptTokens est ≤ budget

/-- A single-part group produced by splitting an oversized review `r`: the
part text comes from the sentence-boundary chunker, and the part carries the
`is_split` / `original_id` / `part_number` / `total_parts` tags. -/
def SplitGroup (est : String → ℕ) (clean : String → String) (budget : ℕ)
    (reviews : List SReview) (c : List SReview) : Prop :=
  ∃ r ∈ reviews, ∃ p ∈ (chunk_text est budget 200 (clean r.text)).enum,
    c = [splitReviewPart { r with cleaned_text := some (clean r.text) } r.id
          (chunk_text est budget 200 (clean r.text)).length p.1 p.2]

lemma groupCostFrom_append (est : String → ℕ) (x : SReview) :
    ∀ (l : List SReview) (i : ℕ),
      groupCostFrom est i (l ++ [x]) =
        groupCostFrom est i l +
          est (reviewLine (i + l.length + 1) x.id (x.cleaned_text.getD "")) := by
  intro l
  induction l with
  | nil => intro i; simp [groupCostFrom]
  | cons r rest ih =>
    intro i
    simp only [List.cons_append, groupCostFrom, List.append_eq]
    rw [ih (i + 1), List.length_cons]
    have hidx : i + 1 + rest.length + 1 = i + (rest.length + 1) + 1 := by omega
    rw [hidx]
    omega

/-- The loop invariant of `create_review_chunks`' accumulation. -/
def ChunkInv (est : String → ℕ) (clean : String → String) (budget : ℕ)
    (reviews : List SReview) (acc : ChunkAcc) : Prop :=
  (∀ c ∈ acc.chunks,
    GroupOK est budget c ∨ SplitGroup est clean budget reviews c)
  ∧ groupCost est acc.current ≤ acc.tokens
  ∧ (acc.current ≠ [] → acc.tokens + basePromptTokens est ≤ budget)
  ∧ (acc.current = [] → acc.tokens = 0)

lemma chunkStep_inv (est : String → ℕ) (clean : String → String) (budget : ℕ)
    (reviews : List SReview)
    (Hm : ∀ (rid t : String) (i : ℕ),
      est (reviewLine 1 rid t) ≤ est (reviewLine (i + 1) rid t))
    (acc : ChunkAcc) (r : SReview) (hr : r ∈ reviews)
    (hinv : ChunkInv est clean budget reviews acc) :
    ChunkInv est clean budget reviews (chunkStep est clean budget acc r) := by
  obtain ⟨h1, h2, h3, h4⟩ := hinv
  unfold groupCost at h2
  unfold chunkStep
  dsimp only
  split
  · -- oversized review: flush the current group, emit one group per part
    refine ⟨?_, by simp [groupCost, groupCostFrom], by simp, fun _ => rfl⟩
    intro c hc
    simp only [List.append_assoc, List.mem_append] at hc
    rcases hc with hc | hc | hc
    · exact h1 c hc
    · by_cases hcur : acc.current = []
      · simp [hcur] at hc
      · simp only [if_pos hcur, List.mem_singleton] at hc
        subst hc
        left
        show groupCost est acc.current + basePromptTokens est ≤ budget
        unfold groupCost
        have hb := h3 hcur
        omega
    · right
      unfold splitGroups at hc
      obtain ⟨p, hp, hcp⟩ := List.mem_map.mp hc
      exact ⟨r, hr, p, hp, hcp.symm⟩
  · split
    · -- current group overflows: flush it, start a new one with this review
      rename_i hbig hover
      refine ⟨?_, ?_, ?_, ?_⟩
      · intro c hc
        rcases List.mem_append.mp hc with hc | hc
        · exact h1 c hc
        · simp only [List.mem_singleton] at hc
          subst hc
          left
          show groupCost est acc.current + basePromptTokens est ≤ budget
          unfold groupCost
          have hb := h3 hover.1
          omega
      · show groupCostFrom est 0
            [{ r with cleaned_text := some (clean r.text) }] ≤
          est (reviewLine (acc.current.length + 1) r.id (clean r.text))
        unfold groupCostFrom
        simp only [Option.getD_some, Nat.add_zero, Nat.zero_add, groupCostFrom]
        exact Hm r.id (clean r.text) acc.current.length
      · intro _
        show est (reviewLine (acc.current.length + 1) r.id (clean r.text)) +
          basePromptTokens est ≤ budget
        omega
      · intro h
        simp at h
    · -- the review fits: append it to the current group
      rename_i hbig hover
      refine ⟨h1, ?_, ?_, ?_⟩
      · show groupCostFrom est 0
            (acc.current ++ [{ r with cleaned_text := some (clean r.text) }]) ≤
          acc.tokens +
            est (reviewLine (acc.current.length + 1) r.id (clean r.text))
        rw [groupCostFrom_append]
        have hidx : 0 + acc.current.length + 1 = acc.current.length + 1 := by
          omega
        rw [hidx]
        simp only [Option.getD_some]
        omega
      · intro _
        show acc.tokens +
            est (reviewLine (acc.current.length + 1) r.id (clean r.text)) +
            basePromptTokens est ≤ budget
        by_cases hcur : acc.current = []
        · have ht := h4 hcur
          omega
        · by_contra hcon
          exact hover ⟨hcur, by omega⟩
      · intro h
        simp at h

lemma chunkFold_inv (est : String → ℕ) (clean : String → String) (budget : ℕ)
    (reviews : List SReview)
    (Hm : ∀ (rid t : String) (i : ℕ),
      est (reviewLine 1 rid t) ≤ est (reviewLine (i + 1) rid t)) :
    ∀ (rs : List SReview) (acc : ChunkAcc), (∀ r ∈ rs, r ∈ reviews) →
      ChunkInv est clean budget reviews acc →
      ChunkInv est clean budget reviews
        (rs.foldl (chunkStep est clean budget) acc) := by
  intro rs
  induction rs with
  | nil => intro acc _ h; exact h
  | cons r rest ih =>
    intro acc hmem h
    rw [List.foldl_cons]
    exact ih _ (fun r' hr' => hmem r' (List.mem_cons_of_mem _ hr'))
      (chunkStep_inv est clean budget reviews Hm acc r
        (hmem r (List.mem_cons_self _ _)) h)

lemma toDigitsCore_length_succ (b : ℕ) :
    ∀ (fuel n : ℕ) (acc : List Char),
      acc.length + 1 ≤ (Nat.toDigitsCore b (fuel + 1) n acc).length := by
  intro fuel
  induction fuel with
  | zero =>
    intro n acc
    unfold Nat.toDigitsCore
    dsimp only
    split <;> simp [Nat.toDigitsCore]
  | succ f ih =>
    intro n acc
    unfold Nat.toDigitsCore
    dsimp only
    split
    · simp
    · calc acc.length + 1 ≤ (Nat.digitChar (n % b) :: acc).length := by simp
        _ ≤ _ := Nat.le_of_succ_le (ih (n / b) (Nat.digitChar (n % b) :: acc))

lemma natRepr_length_pos (n : ℕ) : 1 ≤ (toString n).length := by
  show 1 ≤ (Nat.repr n).length
  unfold Nat.repr Nat.toDigits
  have h := toDigitsCore_length_succ 10 n n []
  simpa using h

/-- The fallback estimator gives a review line at position 1 at most the
tokens of the same line at any later position (the only difference is the
decimal index, at least one digit long). -/
lemma fallback_reviewLine_mono (rid t : String) (i : ℕ) :
    fallbackEstimate (reviewLine 1 rid t) ≤
      fallbackEstimate (reviewLine (i + 1) rid t) := by
  unfold fallbackEstimate reviewLine
  apply Nat.div_le_div_right
  simp only [String.length_append]
  have h1 : (toString 1).length = 1 := rfl
  have h2 := natRepr_length_pos (i + 1)
  omega

/-- C7, amended.  Under a position-monotone estimator (satisfied by the
character-count fallback), every group produced by `create_review_chunks`
either honours the budget — its token cost plus the fixed prompt-template
overhead is at most the budget — or is a single-part group obtained by
splitting an oversized review at sentence boundaries, tagged with
`is_split`, `original_id`, `part_number` and `total_parts`.  The correction
to the claim: a split part's group is NOT guaranteed to honour the budget
(the splitter bounds the bare part text by the full budget, ignoring the
prompt overhead and the rendered-line prefix, and adds up to 200 overlap
tokens) — see the counterexample. -/
theorem c7_chunker_budget_bound (est : String → ℕ) (clean : String → String)
    (budget : ℕ) (reviews : List SReview)
    (Hm : ∀ (rid t : String) (i : ℕ),
      est (reviewLine 1 rid t) ≤ est (reviewLine (i + 1) rid t)) :
    (∀ c ∈ create_review_chunks est clean budget reviews,
      GroupOK est budget c ∨ SplitGroup est clean budget reviews c)
    ∧ (∀ c, SplitGroup est clean budget reviews c →
        ∃ s, c = [s] ∧ s.is_split = true ∧
          ∃ orig i total, s.original_id = some orig ∧
            s.part_number = some i ∧ s.total_parts = some total ∧
            s.id = orig ++ "_part" ++ toString i) := by
  constructor
  · intro c hc
    have hinv := chunkFold_inv est clean budget reviews Hm reviews
      ⟨[], [], 0⟩ (fun r hr => hr)
      ⟨fun c hc => absurd hc (List.not_mem_nil c), by
        simp [groupCost, groupCostFrom], by simp, fun _ => rfl⟩
    unfold create_review_chunks at hc
    dsimp only at hc
    rcases List.mem_append.mp hc with hc | hc
    · exact hinv.1 c hc
    · by_cases hcur :
        (reviews.foldl (chunkStep est clean budget) ⟨[], [], 0⟩).current = []
      · simp [hcur] at hc
      · simp only [if_pos hcur, List.mem_singleton] at hc
        subst hc
        left
        show groupCost est _ + basePromptTokens est ≤ budget
        have h2 := hinv.2.1
        have h3 := hinv.2.2.1 hcur
        omega
  · intro c hsp
    obtain ⟨r, _, p, hp, hcp⟩ := hsp
    exact ⟨_, hcp, rfl,
      r.id, p.1 + 1, (chunk_text est budget 200 (clean r.text)).length,
      rfl, rfl, rfl, rfl⟩

set_option maxRecDepth 4000 in
/-- Witness for C7: the two-review run under the default 8000-token budget
and the fallback estimator produces a single accumulated group, which the
theorem certifies as within budget or a split part (here: within budget). -/
theorem c7_chunker_budget_bound_witness :
    GroupOK fallbackEstimate 8000
      [{ id := "1", text := "good", cleaned_text := some "good" },
       { id := "2", text := "bad", cleaned_text := some "bad" }] ∨
    SplitGroup fallbackEstimate (fun s => s) 8000
      [{ id := "1", text := "good" }, { id := "2", text := "bad" }]
      [{ id := "1", text := "good", cleaned_text := some "good" },
       { id := "2", text := "bad", cleaned_text := some "bad" }] :=
  (c7_chunker_budget_bound fallbackEstimate (fun s => s) 8000
    [{ id := "1", text := "good" }, { id := "2", text := "bad" }]
    (fun rid t i => fallback_reviewLine_mono rid t i)).1 _ (by decide)

set_option maxRecDepth 4000 in
/-- C7, counterexample to the claim as stated: with the fallback estimator
and budget 83 (= 78 template tokens + 5), the review `id "9"` is oversized
(9 + 78 > 83) and is split into the single part `"9_part1"`; but that
part's own group costs 11 + 78 = 89 > 83 tokens — the split part's group
violates the budget bound the claim asserts. -/
theorem c7_split_part_group_exceeds_budget :
    create_review_chunks fallbackEstimate (fun s => s)
        (basePromptTokens fallbackEstimate + 5)
        [{ id := "9", text := "hello world." }] =
      [[{ id := "9_part1", text := "hello world.",
          cleaned_text := some "hello world.", is_split := true,
          original_id := some "9", part_number := some 1,
          total_parts := some 1 }]]
    ∧ ¬ GroupOK fallbackEstimate (basePromptTokens fallbackEstimate + 5)
        [{ id := "9_part1", text := "hello world.",
           cleaned_text := some "hello world.", is_split := true,
           original_id := some "9", part_number := some 1,
           total_parts := some 1 }] :=
  ⟨by decide, by unfold GroupOK; decide⟩
